import Mathlib

/-!
Verification development for the stripe-csv fees pipeline.

The Rust source (src/amount_serde.rs, src/parser/fees.rs, src/main.rs) is
shallowly embedded here:

* `Q` is an executable exact-rational type (numerator/denominator pairs,
  no normalization) with a valuation `Q.val` into Mathlib's rationals;
  every operation of the model is defined on `Q` so that concrete runs
  reduce inside the kernel.
* `F64` models IEEE-754 binary64 values as exact rationals together with
  the special values; `roundF64` is round-to-nearest, ties-to-even onto
  the binary64 grid.  All floating-point operations of the source
  (decimal parsing, multiplication by 100.0, `f64::round`, `as i64`,
  division by 100.0, fixed-precision formatting) are defined through it.
* `parseAmount` models `amount_serde::deserialize`: replace every comma
  by a dot, parse with Rust `f64::from_str` semantics, multiply by 100.0,
  round half away from zero, cast to `i64` (saturating).
* `Entry`, `AccountFees`, `aggregate` model the aggregation loop of
  `parser::fees::parse`, with `u32`/`i64` wrap-around made explicit.
* `RPath`, `deriveOutput`, `parseTrace` model the path handling and the
  file-system effects of `parse` in order.
-/

set_option maxRecDepth 100000

set_option exponentiation.threshold 2000

namespace StripeCsv

/-! ## Executable exact rationals -/

/-- An exact rational as an unreduced fraction.  Every constructor used
by the model keeps the denominator positive; `Q.val` is the denoted
rational number. -/
structure Q where
  n : ℤ
  d : ℤ
deriving DecidableEq, Repr

namespace Q

/-- The rational number denoted by a fraction. -/
def val (a : Q) : ℚ := (a.n : ℚ) / (a.d : ℚ)

def ofInt (z : ℤ) : Q := ⟨z, 1⟩

def mul (a b : Q) : Q := ⟨a.n * b.n, a.d * b.d⟩

def add (a b : Q) : Q := ⟨a.n * b.d + b.n * a.d, a.d * b.d⟩

def neg (a : Q) : Q := ⟨-a.n, a.d⟩

def sub (a b : Q) : Q := a.add b.neg

def qabs (a : Q) : Q := ⟨(a.n.natAbs : ℤ), a.d⟩

/-- Division, with the sign moved into the numerator so that a positive
denominator stays positive; division by zero yields zero (never taken by
the model). -/
def div (a b : Q) : Q :=
  if b.n = 0 then ⟨0, 1⟩
  else
    let m := a.n * b.d
    let k := a.d * b.n
    if k < 0 then ⟨-m, -k⟩ else ⟨m, k⟩

/-- Comparison by cross multiplication (sound for positive
denominators). -/
def ble (a b : Q) : Bool := a.n * b.d ≤ b.n * a.d

def blt (a b : Q) : Bool := a.n * b.d < b.n * a.d

/-- Floor of the fraction (floor division of the components). -/
def floor (a : Q) : ℤ := a.n.fdiv a.d

/-- The power of two `2 ^ s` as a fraction. -/
def pow2 (s : ℤ) : Q :=
  if 0 ≤ s then ⟨((2 ^ s.toNat : ℕ) : ℤ), 1⟩ else ⟨1, ((2 ^ (-s).toNat : ℕ) : ℤ)⟩

/-- The power of ten `10 ^ s` as a fraction. -/
def pow10 (s : ℤ) : Q :=
  if 0 ≤ s then ⟨((10 ^ s.toNat : ℕ) : ℤ), 1⟩ else ⟨1, ((10 ^ (-s).toNat : ℕ) : ℤ)⟩

end Q

/-! ## Rounding primitives -/

/-- Round a fraction to the nearest integer, ties to even. -/
def rne (q : Q) : ℤ :=
  let f : ℤ := q.floor
  let r2 : ℤ := 2 * (q.n - f * q.d)
  if r2 < q.d then f
  else if q.d < r2 then f + 1
  else if f % 2 = 0 then f else f + 1

/-- Round a fraction to the nearest integer, half away from zero.
This is the semantics of Rust `f64::round`. -/
def roundHalfAway (q : Q) : ℤ :=
  if 0 ≤ q.n then (q.add ⟨1, 2⟩).floor else -((q.neg.add ⟨1, 2⟩).floor)

/-- Truncation toward zero. -/
def ratTrunc (q : Q) : ℤ :=
  if 0 ≤ q.n then q.floor else -(q.neg.floor)

/-! ## Bit length and binary exponent -/

/-- Fuelled bit length: number of binary digits of `n` (0 for 0). -/
def bitlenF : ℕ → ℕ → ℕ
  | 0, _ => 0
  | fuel + 1, n => if n = 0 then 0 else bitlenF fuel (n / 2) + 1

/-- Bit length with enough fuel for every number below `2 ^ 256`;
all quantities reachable from the program's `i64`/`f64` pipeline are
far below that bound. -/
def bitlen (n : ℕ) : ℕ := bitlenF 256 n

/-- Binary exponent of a nonzero fraction: the `e` with
`2 ^ e ≤ |q| < 2 ^ (e + 1)`. -/
def qexp (q : Q) : ℤ :=
  let a : ℤ := bitlen q.n.natAbs
  let b : ℤ := bitlen q.d.natAbs
  if (Q.pow2 (a - b)).ble q.qabs then a - b else a - b - 1

/-! ## Binary64 -/

/-- An IEEE-754 binary64 value: a finite value carried as its exact
rational, or one of the special values. -/
inductive F64 where
  | finite (q : Q)
  | inf
  | negInf
  | nan
deriving DecidableEq, Repr

/-- Round an exact rational to binary64: round to nearest, ties to even,
subnormals on the `2 ^ (-1074)` grid, overflow to infinity. -/
def roundF64 (q : Q) : F64 :=
  if q.n = 0 then .finite (Q.ofInt 0)
  else
    let e : ℤ := qexp q
    let s : ℤ := if e - 52 < -1074 then -1074 else e - 52
    let r : Q := (Q.ofInt (rne (q.div (Q.pow2 s)))).mul (Q.pow2 s)
    if (Q.pow2 1024).ble r.qabs then (if 0 < q.n then .inf else .negInf)
    else .finite r

/-- Binary64 multiplication (the source only multiplies by the exact
constant 100.0). -/
def F64.mul : F64 → F64 → F64
  | .nan, _ => .nan
  | _, .nan => .nan
  | .finite a, .finite b => roundF64 (a.mul b)
  | .inf, .finite b => if b.n = 0 then .nan else if 0 < b.n then .inf else .negInf
  | .negInf, .finite b => if b.n = 0 then .nan else if 0 < b.n then .negInf else .inf
  | .finite a, .inf => if a.n = 0 then .nan else if 0 < a.n then .inf else .negInf
  | .finite a, .negInf => if a.n = 0 then .nan else if 0 < a.n then .negInf else .inf
  | .inf, .inf => .inf
  | .inf, .negInf => .negInf
  | .negInf, .inf => .negInf
  | .negInf, .negInf => .inf

/-- Binary64 division (the source only divides by the exact constant
100.0). -/
def F64.div : F64 → F64 → F64
  | .nan, _ => .nan
  | _, .nan => .nan
  | .finite a, .finite b => if b.n = 0 then .nan else roundF64 (a.div b)
  | .inf, .finite _ => .inf
  | .negInf, .finite _ => .negInf
  | .finite _, .inf => .finite (Q.ofInt 0)
  | .finite _, .negInf => .finite (Q.ofInt 0)
  | .inf, .inf => .nan
  | .inf, .negInf => .nan
  | .negInf, .inf => .nan
  | .negInf, .negInf => .nan

/-- Rust `f64::round`: round half away from zero.  The result of
rounding a finite double is exactly representable, so no re-rounding
happens. -/
def F64.rustRound : F64 → F64
  | .finite q => .finite (Q.ofInt (roundHalfAway q))
  | .inf => .inf
  | .negInf => .negInf
  | .nan => .nan

/-- Rust `as i64` on an `f64`: truncate, saturate, NaN to 0. -/
def F64.toI64 : F64 → ℤ
  | .finite q =>
    let z := ratTrunc q
    if z < -(2 ^ 63) then -(2 ^ 63)
    else if (2 ^ 63 - 1 : ℤ) < z then 2 ^ 63 - 1
    else z
  | .inf => 2 ^ 63 - 1
  | .negInf => -(2 ^ 63)
  | .nan => 0

/-- Rust `i64 as f64`: round to nearest, ties to even. -/
def i64ToF64 (t : ℤ) : F64 := roundF64 (Q.ofInt t)

/-! ## Rust `f64::from_str` -/

/-- Numeric value of a decimal digit character. -/
def digitVal (c : Char) : ℕ := c.toNat - '0'.toNat

/-- Natural number denoted by a list of decimal digit characters. -/
def digitsToNat (l : List Char) : ℕ :=
  l.foldl (fun acc c => acc * 10 + digitVal c) 0

/-- Consume an optional leading sign; returns (isNegative, rest). -/
def takeSign : List Char → Bool × List Char
  | [] => (false, [])
  | c :: t =>
    if c = '+' then (false, t) else if c = '-' then (true, t) else (false, c :: t)

/-- ASCII case folding for the letters of inf / infinity / nan. -/
def caseFold (c : Char) : Char :=
  if c = 'I' then 'i' else if c = 'N' then 'n' else if c = 'F' then 'f'
  else if c = 'A' then 'a' else if c = 'T' then 't' else if c = 'Y' then 'y'
  else c

/-- Parse the optional exponent part of a float literal: empty, or
an `e`/`E`, an optional sign and a nonempty run of digits. -/
def takeExpPart : List Char → Option ℤ
  | [] => some 0
  | c :: t =>
    if c = 'e' ∨ c = 'E' then
      let (eneg, t1) := takeSign t
      let ed := t1.takeWhile Char.isDigit
      let t2 := t1.dropWhile Char.isDigit
      if ed = [] ∨ t2 ≠ [] then none
      else some ((if eneg then -1 else 1) * (digitsToNat ed : ℤ))
    else none

/-- Exact rational value of a decomposed decimal literal:
sign, integral digits, fractional digits, decimal exponent. -/
def decValue (neg : Bool) (d1 d2 : List Char) (e : ℤ) : Q :=
  (Q.ofInt ((if neg then -1 else 1) * (digitsToNat (d1 ++ d2) : ℤ))).mul
    (Q.pow10 (e - (d2.length : ℤ)))

/-- Parse the number part of a float literal (after the sign):
digits, at most one dot with digits on at least one side, optional
exponent part.  Returns the correctly rounded binary64 value. -/
def parseNumPart (neg : Bool) (r : List Char) : Option F64 :=
  let d1 := r.takeWhile Char.isDigit
  let r1 := r.dropWhile Char.isDigit
  match r1 with
  | '.' :: t =>
    let d2 := t.takeWhile Char.isDigit
    let r2 := t.dropWhile Char.isDigit
    if d1 = [] ∧ d2 = [] then none
    else
      match takeExpPart r2 with
      | none => none
      | some e => some (roundF64 (decValue neg d1 d2 e))
  | _ =>
    if d1 = [] then none
    else
      match takeExpPart r1 with
      | none => none
      | some e => some (roundF64 (decValue neg d1 [] e))

/-- Rust `f64::from_str`: optional sign, then case-insensitively
`inf`, `infinity` or `nan`, or a number with optional exponent;
correctly rounded to binary64. -/
def rustParseF64 (l : List Char) : Option F64 :=
  let (neg, r) := takeSign l
  let rf := r.map caseFold
  if rf = "inf".toList ∨ rf = "infinity".toList then
    some (if neg then .negInf else .inf)
  else if rf = "nan".toList then some .nan
  else parseNumPart neg r

/-! ## amount_serde::deserialize -/

/-- `s.replace(',', ".")` on the character list. -/
def commaToDot (l : List Char) : List Char :=
  l.map (fun c => if c = ',' then '.' else c)

/-- Model of `amount_serde::deserialize`: normalize commas to dots,
parse as `f64`, multiply by 100.0, round half away from zero, cast to
`i64`.  `none` models the `MalformedAmount` error path. -/
def parseAmount (s : String) : Option ℤ :=
  match rustParseF64 (commaToDot s.data) with
  | none => none
  | some v => some ((v.mul (.finite (Q.ofInt 100))).rustRound.toI64)

/-! ## Data model of parser::fees -/

/-- `u32` wrap-around. -/
def wrap32 (n : ℕ) : ℕ := n % 2 ^ 32

/-- `i64` two's-complement wrap-around. -/
def wrap64 (z : ℤ) : ℤ := (z + 2 ^ 63) % 2 ^ 64 - 2 ^ 63

/-- One decoded CSV row (struct `Entry`): `Amount` decoded through
`amount_serde`, `User ID`, `User Email`. -/
structure Entry where
  amount : ℤ
  account_id : String
  email : String
deriving DecidableEq, Repr

/-- Per-account accumulator (struct `AccountFees`);
`transaction_count` is a `u32`, `total_fees` an `i64`. -/
structure AccountFees where
  account_id : String
  email : String
  transaction_count : ℕ
  total_fees : ℤ
deriving DecidableEq, Repr

namespace AccountFees

/-- `AccountFees::new`. -/
def new (account_id email : String) : AccountFees :=
  ⟨account_id, email, 0, 0⟩

/-- `AccountFees::add_fee`: increment the count, add the fee, with the
machine-integer wrap-around of release-mode Rust made explicit. -/
def add_fee (a : AccountFees) (fee : ℤ) : AccountFees :=
  { a with
    transaction_count := wrap32 (a.transaction_count + 1)
    total_fees := wrap64 (a.total_fees + fee) }

/-- `AccountFees::csv_header`. -/
def csv_header : String := "account_id,email,transaction_count,total_fees_eur"

end AccountFees

/-! ## The statistics map

`HashMap<String, AccountFees>` is modelled as an association list in
insertion order; `parse` only uses `contains_key`, `insert` of an absent
key, `get_mut` and value iteration. -/

/-- The in-memory summary: account key to accumulator, insertion
order. -/
abbrev Summary := List (String × AccountFees)

/-- `HashMap::get` / `get_mut` lookup. -/
def lookupS : Summary → String → Option AccountFees
  | [], _ => none
  | (k', v) :: t, k => if k' = k then some v else lookupS t k

/-- `HashMap::contains_key`. -/
def containsS (m : Summary) (k : String) : Bool := (lookupS m k).isSome

/-- Insertion of an absent key (the only insertion `parse` performs). -/
def insertS (m : Summary) (k : String) (v : AccountFees) : Summary :=
  m ++ [(k, v)]

/-- In-place mutation through `get_mut`: replace the value stored at the
key. -/
def updateS : Summary → String → AccountFees → Summary
  | [], _, _ => []
  | (k', v') :: t, k, v => if k' = k then (k, v) :: t else (k', v') :: updateS t k v

/-! ## The aggregation loop of parse -/

/-- Errors of `parser::fees::parse`.  `decode` carries the message of a
row that failed to deserialize (including `MalformedAmount`). -/
inductive PError where
  | fileNotFound (path : String)
  | unableToStoreEntry
  | decode (msg : String)
deriving DecidableEq, Repr

/-- One iteration of the aggregation loop: insert a fresh `AccountFees`
when the key is absent, then look the key up again and `add_fee`; a
failed lookup is the `UnableToStoreEntry` error path of the source. -/
def step (m : Summary) (e : Entry) : Except PError Summary :=
  let m1 := if containsS m e.account_id then m
            else insertS m e.account_id (AccountFees.new e.account_id e.email)
  match lookupS m1 e.account_id with
  | none => .error .unableToStoreEntry
  | some af => .ok (updateS m1 e.account_id (af.add_fee e.amount))

/-- The `for result in csv_reader.deserialize()` loop: fail-fast on the
first row decode error, otherwise fold `step` over the rows. -/
def aggregate : List (Except String Entry) → Summary → Except PError Summary
  | [], m => .ok m
  | .error msg :: _, _ => .error (.decode msg)
  | .ok e :: rest, m =>
    match step m e with
    | .error er => .error er
    | .ok m' => aggregate rest m'

/-! ## Output rendering -/

/-- Fuelled decimal digit list of a natural number. -/
def natDigitsF : ℕ → ℕ → List Char
  | 0, _ => []
  | fuel + 1, n =>
    if n < 10 then [Char.ofNat ('0'.toNat + n)]
    else natDigitsF fuel (n / 10) ++ [Char.ofNat ('0'.toNat + n % 10)]

/-- Decimal rendering of a natural number (fuel covers everything below
`10 ^ 66`, far beyond the program's 64-bit quantities). -/
def renderNat (n : ℕ) : String := ⟨natDigitsF 66 n⟩

/-- Exactly-two-digit rendering of a number below 100. -/
def render2 (n : ℕ) : String := ⟨[Char.ofNat ('0'.toNat + n / 10 % 10), Char.ofNat ('0'.toNat + n % 10)]⟩

/-- Rust `format!` with the `{:.2}` spec on an `f64`: the exact binary
value rounded to two fractional digits, ties to even. -/
def fmtFixed2 : F64 → String
  | .finite q =>
    let m : ℤ := rne (q.mul (Q.ofInt 100))
    (if q.n < 0 then "-" else "") ++ renderNat (m.natAbs / 100) ++ "." ++ render2 (m.natAbs % 100)
  | .inf => "inf"
  | .negInf => "-inf"
  | .nan => "NaN"

/-- The `Display` impl of `AccountFees`: the written record is
the account id, the email, the count and the `{:.2}` rendering of
`total_fees as f64 / 100.0`, comma separated. -/
def displayAccountFees (a : AccountFees) : String :=
  a.account_id ++ "," ++ a.email ++ "," ++ renderNat a.transaction_count ++ ","
    ++ fmtFixed2 ((i64ToF64 a.total_fees).div (.finite (Q.ofInt 100)))

/-- The bytes `parse` writes to the output file: the fixed header, a
newline, then each record followed by a newline. -/
def outputContent (m : Summary) : String :=
  AccountFees.csv_header ++ "\n"
    ++ String.join (m.map (fun kv => displayAccountFees kv.2 ++ "\n"))

/-! ## Paths -/

/-- A file path: the parent components and the file name (the inputs
`parse` is used with are paths to regular files, which have a file
name). -/
structure RPath where
  parent : List String
  fileName : String
deriving DecidableEq, Repr

/-- Index just past the last dot of a name, if any. -/
def lastDotIdx (l : List Char) : Option ℕ :=
  match l with
  | [] => none
  | c :: t =>
    match lastDotIdx t with
    | some i => some (i + 1)
    | none => if c = '.' then some 1 else none

/-- Rust `Path::file_stem` on a file name: `None` for an empty name;
the whole name when it has no dot or only a leading dot; otherwise the
part before the last dot. -/
def fileStem (name : String) : Option String :=
  match name.data with
  | [] => none
  | l =>
    match lastDotIdx l with
    | none => some ⟨l⟩
    | some 1 => some ⟨l⟩
    | some i => some ⟨l.take (i - 1)⟩

/-- The default output path of `parse`: the input's file stem (or
"output" when it has none) with the literal suffix `_out.csv`, in the
input's directory (`set_file_name` keeps the parent). -/
def deriveOutput (file : RPath) : RPath :=
  { file with fileName := ((fileStem file.fileName).getD "output") ++ "_out.csv" }

/-- `output.unwrap_or_else(default derivation)`. -/
def resolveOutput (file : RPath) (output : Option RPath) : RPath :=
  output.getD (deriveOutput file)

/-! ## The file-system effects of parse -/

/-- The output-side file-system operations `parse` performs, in
order. -/
inductive FsOp where
  | removeFile (p : RPath)
  | createDirAll (parent : List String)
  | createFile (p : RPath)
  | writeFile (p : RPath) (content : String)
deriving DecidableEq, Repr

/-- Model of `parser::fees::parse`: the pre-flight existence check, the
output-path resolution, the aggregation loop, and only then the
output-side effects (conditional removal, directory creation, file
creation, writes).  Returns the effects performed together with the
result. -/
def parseTrace (file : RPath) (inputExists : Bool) (output : Option RPath)
    (outputExists : Bool) (rows : List (Except String Entry)) :
    List FsOp × Except PError Unit :=
  if !inputExists then ([], .error (.fileNotFound file.fileName))
  else
    let out := resolveOutput file output
    match aggregate rows [] with
    | .error e => ([], .error e)
    | .ok m =>
      ((if outputExists then [.removeFile out] else [])
        ++ [.createDirAll out.parent, .createFile out, .writeFile out (outputContent m)],
       .ok ())

/-! ## Spec-side definitions

The following definitions follow the words of the specification (not the
source); they exist to be compared with the source-derived definitions
above. -/

/-- A decimal separator in the sense of the spec: a dot or a comma. -/
def isSep (c : Char) : Bool := c = '.' ∨ c = ','

/-- The spec's accepted textual forms for an amount: an optional sign,
digits, and at most one decimal separator which may be either a dot or
a comma. -/
def claimedGrammar (s : String) : Bool :=
  let r := (takeSign s.data).2
  r.any Char.isDigit && r.all (fun c => c.isDigit || isSep c)
    && (r.filter isSep).length ≤ 1

/-- The exact rational value denoted by a string of the spec's grammar:
sign times all digits read as an integer, divided by ten to the number
of fractional digits. -/
def specValue (s : String) : Q :=
  let (neg, r) := takeSign s.data
  let d1 := r.takeWhile Char.isDigit
  let r1 := r.dropWhile Char.isDigit
  match r1 with
  | _ :: t => decValue neg d1 t 0
  | [] => decValue neg d1 [] 0

/-- The spec's amount semantics: on a string of the accepted grammar,
the real value times 100, rounded to the nearest integer half away from
zero. -/
def specParseAmount (s : String) : Option ℤ :=
  if claimedGrammar s then
    some (roundHalfAway ((specValue s).mul (Q.ofInt 100)))
  else none

/-- Number of fractional digits of a string of the claimed grammar:
the length of the part after the decimal separator (0 when there is no
separator). -/
def fracDigits (s : String) : ℕ :=
  match (takeSign s.data).2.dropWhile Char.isDigit with
  | [] => 0
  | _ :: t => t.length

/-- The spec's rendering of `total_fees_eur`: the exact rational
`total_fees / 100` with exactly two fractional digits, a dot, no
grouping, and a leading minus for negatives. -/
def exactEur (t : ℤ) : String :=
  (if t < 0 then "-" else "") ++ renderNat (t.natAbs / 100) ++ "." ++ render2 (t.natAbs % 100)

/-- The record line the spec promises for an `AccountFees`. -/
def specLine (a : AccountFees) : String :=
  a.account_id ++ "," ++ a.email ++ "," ++ renderNat a.transaction_count ++ ","
    ++ exactEur a.total_fees

/-- The bytes the source writes for one record: its `Display` rendering
followed by one newline. -/
def writtenRecord (a : AccountFees) : String :=
  displayAccountFees a ++ "\n"

/-- The decoded entries of a row stream (errors dropped). -/
def okEntries (rows : List (Except String Entry)) : List Entry :=
  rows.filterMap fun r => r.toOption

/-- Number of rows of a stream carrying a given account key. -/
def countKey (rows : List (Except String Entry)) (k : String) : ℕ :=
  ((okEntries rows).filter fun e => e.account_id = k).length

/-- Sum of the amounts of the rows carrying a given account key. -/
def sumKey (rows : List (Except String Entry)) (k : String) : ℤ :=
  (((okEntries rows).filter fun e => e.account_id = k).map Entry.amount).sum

/-- Sum of all row amounts of a stream. -/
def sumAll (rows : List (Except String Entry)) : ℤ :=
  ((okEntries rows).map Entry.amount).sum

/-- Sum of the accumulated totals over a summary. -/
def mapTotal (m : Summary) : ℤ :=
  (m.map fun kv => kv.2.total_fees).sum

/-- The effect of merging rows into an accumulator: counts wrap at
`2 ^ 32`, totals at `2 ^ 64`. -/
def accrue (af : AccountFees) (cnt : ℕ) (s : ℤ) : AccountFees :=
  { af with
    transaction_count := wrap32 (af.transaction_count + cnt)
    total_fees := wrap64 (af.total_fees + s) }

/-! ## Lemmas on the summary map -/

theorem lookupS_append (m₁ m₂ : Summary) (k : String) :
    lookupS (m₁ ++ m₂) k =
      match lookupS m₁ k with
      | some v => some v
      | none => lookupS m₂ k := by
  induction m₁ with
  | nil => simp [lookupS]
  | cons hd t ih =>
    obtain ⟨k', v⟩ := hd
    by_cases h : k' = k <;> simp [lookupS, h, ih]

theorem lookupS_insertS_self (m : Summary) (k : String) (v : AccountFees)
    (h : lookupS m k = none) : lookupS (insertS m k v) k = some v := by
  rw [insertS, lookupS_append, h]
  simp [lookupS]

theorem lookupS_insertS_other (m : Summary) (k k' : String) (v : AccountFees)
    (h : k' ≠ k) : lookupS (insertS m k v) k' = lookupS m k' := by
  rw [insertS, lookupS_append]
  cases hm : lookupS m k' with
  | some w => rfl
  | none => simp [lookupS, Ne.symm h]

theorem lookupS_updateS_self (m : Summary) (k : String) (v : AccountFees)
    (h : (lookupS m k).isSome) : lookupS (updateS m k v) k = some v := by
  induction m with
  | nil => simp [lookupS] at h
  | cons hd t ih =>
    obtain ⟨k', v'⟩ := hd
    by_cases hk : k' = k
    · subst hk
      simp [updateS, lookupS]
    · simp only [lookupS, if_neg hk] at h
      simp [updateS, lookupS, hk, ih h]

theorem lookupS_updateS_other (m : Summary) (k k' : String) (v : AccountFees)
    (h : k' ≠ k) : lookupS (updateS m k v) k' = lookupS m k' := by
  induction m with
  | nil => simp [updateS]
  | cons hd t ih =>
    obtain ⟨k'', v'⟩ := hd
    by_cases hk : k'' = k
    · subst hk
      simp [updateS, lookupS, Ne.symm h]
    · simp [updateS, lookupS, hk, ih]

/-! ## The step characterization -/

theorem step_spec (m : Summary) (e : Entry) :
    ∃ m', step m e = .ok m' ∧
      (∀ k, k ≠ e.account_id → lookupS m' k = lookupS m k) ∧
      (∀ af, lookupS m e.account_id = some af →
        lookupS m' e.account_id = some (af.add_fee e.amount)) ∧
      (lookupS m e.account_id = none →
        lookupS m' e.account_id =
          some ((AccountFees.new e.account_id e.email).add_fee e.amount)) := by
  by_cases h : containsS m e.account_id = true
  · rw [containsS, Option.isSome_iff_exists] at h
    obtain ⟨af, haf⟩ := h
    refine ⟨updateS m e.account_id (af.add_fee e.amount), ?_, ?_, ?_, ?_⟩
    · rw [step]
      simp only [containsS, haf, Option.isSome_some, if_true, haf]
    · intro k hk
      exact lookupS_updateS_other _ _ _ _ hk
    · intro af' haf'
      rw [haf'] at haf
      cases haf
      exact lookupS_updateS_self _ _ _ (by rw [haf']; rfl)
    · intro hnone
      rw [hnone] at haf
      cases haf
  · have hnone : lookupS m e.account_id = none := by
      rw [containsS] at h
      exact Option.not_isSome_iff_eq_none.mp (by simpa using h)
    have hins := lookupS_insertS_self m e.account_id
      (AccountFees.new e.account_id e.email) hnone
    refine ⟨updateS (insertS m e.account_id (AccountFees.new e.account_id e.email))
      e.account_id ((AccountFees.new e.account_id e.email).add_fee e.amount), ?_, ?_, ?_, ?_⟩
    · rw [step]
      simp [containsS, hnone, hins]
    · intro k hk
      rw [lookupS_updateS_other _ _ _ _ hk, lookupS_insertS_other _ _ _ _ hk]
    · intro af' haf'
      rw [haf'] at hnone
      cases hnone
    · intro _
      exact lookupS_updateS_self _ _ _ (by rw [hins]; rfl)

theorem step_isOk (m : Summary) (e : Entry) : ∃ m', step m e = .ok m' := by
  obtain ⟨m', h, -⟩ := step_spec m e
  exact ⟨m', h⟩

theorem aggregate_ok_of_all_ok (rows : List (Except String Entry)) :
    ∀ m, (∀ r ∈ rows, ∃ e, r = .ok e) → ∃ mf, aggregate rows m = .ok mf := by
  induction rows with
  | nil => exact fun m _ => ⟨m, rfl⟩
  | cons r rest ih =>
    intro m hall
    obtain ⟨e, he⟩ := hall r (List.mem_cons_self r rest)
    subst he
    obtain ⟨m', hm'⟩ := step_isOk m e
    obtain ⟨mf, hmf⟩ := ih m' fun r hr => hall r (List.mem_cons_of_mem _ hr)
    exact ⟨mf, by rw [aggregate, hm']; exact hmf⟩

theorem aggregate_ne_store_error (rows : List (Except String Entry)) :
    ∀ m, aggregate rows m ≠ Except.error PError.unableToStoreEntry := by
  induction rows with
  | nil => intro m h; cases h
  | cons r rest ih =>
    intro m
    cases r with
    | error msg => intro h; rw [aggregate] at h; cases h
    | ok e =>
      obtain ⟨m', hm'⟩ := step_isOk m e
      rw [aggregate, hm']
      exact ih m'

/-- Claim C9: the `UnableToStoreEntry` branch is unreachable — after the
conditional insert, the lookup of the entry's key always succeeds, so
neither the aggregation loop nor `parse` ever returns
`UnableToStoreEntry`, on any input. -/
theorem claim_C9_store_error_unreachable :
    (∀ (m : Summary) (e : Entry), ∃ m', step m e = Except.ok m') ∧
    (∀ (rows : List (Except String Entry)) (m : Summary),
      aggregate rows m ≠ Except.error PError.unableToStoreEntry) ∧
    (∀ (f : RPath) (ie : Bool) (o : Option RPath) (oe : Bool)
      (rows : List (Except String Entry)),
      (parseTrace f ie o oe rows).2 ≠ Except.error PError.unableToStoreEntry) := by
  refine ⟨step_isOk, aggregate_ne_store_error, ?_⟩
  intro f ie o oe rows
  cases ie with
  | false => intro h; cases h
  | true =>
    rw [parseTrace]
    cases hagg : aggregate rows [] with
    | error e =>
      simp only [Bool.not_true, Bool.false_eq_true, if_false]
      intro h
      cases h
      exact aggregate_ne_store_error rows [] hagg
    | ok m =>
      simp only [Bool.not_true, Bool.false_eq_true, if_false]
      intro h
      cases h

/-- Claim C6: the loop is fail-fast — when every row before the first
decode error decodes, the aggregation returns exactly that first error,
whatever rows follow it (they are neither decoded nor merged). -/
theorem claim_C6_fail_fast (pre : List (Except String Entry)) (msg : String)
    (rest : List (Except String Entry)) (m : Summary)
    (h : ∀ r ∈ pre, ∃ e, r = Except.ok e) :
    aggregate (pre ++ Except.error msg :: rest) m = Except.error (PError.decode msg) := by
  induction pre generalizing m with
  | nil => rfl
  | cons r pre' ih =>
    obtain ⟨e, he⟩ := h r (List.mem_cons_self r pre')
    subst he
    obtain ⟨m', hm'⟩ := step_isOk m e
    rw [List.cons_append, aggregate, hm']
    exact ih m' fun r hr => h r (List.mem_cons_of_mem _ hr)

theorem claim_C6_fail_fast_witness :
    aggregate ([Except.ok ⟨25, "a", "a@x"⟩] ++ Except.error "bad row" ::
      [Except.ok ⟨50, "b", "b@x"⟩]) [] = Except.error (PError.decode "bad row") :=
  claim_C6_fail_fast [Except.ok ⟨25, "a", "a@x"⟩] "bad row"
    [Except.ok ⟨50, "b", "b@x"⟩] []
    (by intro r hr; simp at hr; exact ⟨_, hr⟩)

/-- Claim C8: on a header-only input (no data rows) `parse` succeeds and
the output is exactly the fixed header line followed by one newline. -/
theorem claim_C8_header_only :
    (∀ (f : RPath) (o : Option RPath) (oe : Bool),
      (parseTrace f true o oe []).2 = Except.ok ()) ∧
    outputContent [] = "account_id,email,transaction_count,total_fees_eur\n" := by
  constructor
  · intro f o oe
    rfl
  · decide

/-- Claim C10: when the input does not exist, or a row fails to decode,
`parse` returns the error with no output-side effect performed: nothing
is removed, created, or written at the output path. -/
theorem claim_C10_no_output_on_error (f : RPath) (o : Option RPath) (oe : Bool)
    (rows : List (Except String Entry)) :
    parseTrace f false o oe rows = ([], Except.error (PError.fileNotFound f.fileName)) ∧
    (∀ e, aggregate rows [] = Except.error e →
      parseTrace f true o oe rows = ([], Except.error e)) := by
  constructor
  · rfl
  · intro e he
    rw [parseTrace]
    simp only [Bool.not_true, Bool.false_eq_true, if_false]
    rw [he]

theorem claim_C10_no_output_on_error_witness :
    parseTrace ⟨["tmp"], "in.csv"⟩ true none true [Except.error "bad row"] =
      ([], Except.error (PError.decode "bad row")) :=
  (claim_C10_no_output_on_error ⟨["tmp"], "in.csv"⟩ none true
    [Except.error "bad row"]).2 (PError.decode "bad row") rfl

/-- Claim C7: with the output path omitted, `parse` writes to the path
built from the input's file stem with the literal suffix `_out.csv` in
the input's directory; and passing exactly that derived path explicitly
behaves identically to omitting it. -/
theorem claim_C7_default_output (p : RPath) (stem : String)
    (h : fileStem p.fileName = some stem) :
    deriveOutput p = ⟨p.parent, stem ++ "_out.csv"⟩ ∧
    (∀ (ie : Bool) (oe : Bool) (rows : List (Except String Entry)),
      parseTrace p ie (some (deriveOutput p)) oe rows = parseTrace p ie none oe rows) := by
  constructor
  · rw [deriveOutput, h]
    rfl
  · intro ie oe rows
    rfl

/-! ## Wrap-around arithmetic -/

theorem wrap32_lt (a : ℕ) : wrap32 a < 2 ^ 32 := by
  unfold wrap32; omega

theorem wrap32_of_lt (a : ℕ) (h : a < 2 ^ 32) : wrap32 a = a := by
  unfold wrap32; omega

theorem wrap32_absorb (a b : ℕ) : wrap32 (wrap32 a + b) = wrap32 (a + b) := by
  unfold wrap32; omega

theorem wrap64_range (a : ℤ) : -(2 ^ 63) ≤ wrap64 a ∧ wrap64 a < 2 ^ 63 := by
  unfold wrap64
  constructor <;> omega

theorem wrap64_of_range (a : ℤ) (h1 : -(2 ^ 63) ≤ a) (h2 : a < 2 ^ 63) :
    wrap64 a = a := by
  unfold wrap64; omega

theorem wrap64_absorb (a b : ℤ) : wrap64 (wrap64 a + b) = wrap64 (a + b) := by
  unfold wrap64; omega

theorem wrap64_add_right (x y s : ℤ) (h : wrap64 x = wrap64 y) :
    wrap64 (x + s) = wrap64 (y + s) := by
  unfold wrap64 at *; omega

/-! ## Accrual algebra -/

/-- A summary is well formed when every stored accumulator is inside
its machine-integer ranges (true of everything the loop builds). -/
def WFm (m : Summary) : Prop :=
  ∀ k af, lookupS m k = some af →
    af.transaction_count < 2 ^ 32 ∧ -(2 ^ 63) ≤ af.total_fees ∧ af.total_fees < 2 ^ 63

theorem accrue_zero (af : AccountFees) (h1 : af.transaction_count < 2 ^ 32)
    (h2 : -(2 ^ 63) ≤ af.total_fees) (h3 : af.total_fees < 2 ^ 63) :
    accrue af 0 0 = af := by
  unfold accrue
  rw [Nat.add_zero, Int.add_zero, wrap32_of_lt _ h1, wrap64_of_range _ h2 h3]

theorem accrue_add_fee (af : AccountFees) (a : ℤ) (c : ℕ) (s : ℤ) :
    accrue (af.add_fee a) c s = accrue af (c + 1) (a + s) := by
  cases af with
  | mk i em c0 t0 =>
    simp only [accrue, AccountFees.add_fee, wrap32, wrap64, AccountFees.mk.injEq,
      true_and]
    constructor <;> omega

theorem add_fee_in_range (af : AccountFees) (a : ℤ) :
    (af.add_fee a).transaction_count < 2 ^ 32 ∧
    -(2 ^ 63) ≤ (af.add_fee a).total_fees ∧ (af.add_fee a).total_fees < 2 ^ 63 :=
  ⟨wrap32_lt _, (wrap64_range _).1, (wrap64_range _).2⟩

theorem WFm_nil : WFm [] := by
  intro k af h
  cases h

theorem step_WF (m : Summary) (e : Entry) (m' : Summary) (hwf : WFm m)
    (h : step m e = .ok m') : WFm m' := by
  obtain ⟨m'', hok, hother, hsome, hnone⟩ := step_spec m e
  rw [hok] at h
  cases h
  intro k af hk
  by_cases hke : k = e.account_id
  · subst hke
    cases hm : lookupS m e.account_id with
    | some af0 =>
      rw [hsome af0 hm] at hk
      cases hk
      exact add_fee_in_range af0 e.amount
    | none =>
      rw [hnone hm] at hk
      cases hk
      exact add_fee_in_range _ e.amount
  · rw [hother k hke] at hk
    exact hwf k af hk

/-! ## Stream statistics -/

theorem okEntries_cons_ok (e : Entry) (rest : List (Except String Entry)) :
    okEntries (Except.ok e :: rest) = e :: okEntries rest := by
  simp [okEntries, Except.toOption]

theorem countKey_cons_ok (e : Entry) (rest : List (Except String Entry)) (k : String) :
    countKey (Except.ok e :: rest) k =
      if e.account_id = k then countKey rest k + 1 else countKey rest k := by
  rw [countKey, okEntries_cons_ok]
  by_cases h : e.account_id = k <;> simp [List.filter, h, countKey]

theorem sumKey_cons_ok (e : Entry) (rest : List (Except String Entry)) (k : String) :
    sumKey (Except.ok e :: rest) k =
      if e.account_id = k then e.amount + sumKey rest k else sumKey rest k := by
  rw [sumKey, okEntries_cons_ok]
  by_cases h : e.account_id = k <;> simp [List.filter, h, sumKey]

theorem find?_okEntries_cons (e : Entry) (rest : List (Except String Entry)) (k : String) :
    (okEntries (Except.ok e :: rest)).find? (fun x => x.account_id = k) =
      if e.account_id = k then some e
      else (okEntries rest).find? (fun x => x.account_id = k) := by
  rw [okEntries_cons_ok]
  by_cases h : e.account_id = k
  · rw [if_pos h, List.find?_cons_of_pos _ (by simp [h])]
  · rw [if_neg h, List.find?_cons_of_neg _ (by simp [h])]

/-! ## The master aggregation lemma -/

theorem aggregate_lookup (rows : List (Except String Entry)) :
    ∀ m mf, WFm m → aggregate rows m = .ok mf → ∀ k,
      (∀ af, lookupS m k = some af →
        lookupS mf k = some (accrue af (countKey rows k) (sumKey rows k))) ∧
      (lookupS m k = none →
        (∀ e0, (okEntries rows).find? (fun e => e.account_id = k) = some e0 →
          lookupS mf k =
            some (accrue (AccountFees.new k e0.email) (countKey rows k) (sumKey rows k))) ∧
        ((okEntries rows).find? (fun e => e.account_id = k) = none →
          lookupS mf k = none)) := by
  induction rows with
  | nil =>
    intro m mf hwf hagg k
    cases hagg
    refine ⟨?_, ?_⟩
    · intro af haf
      have hr := hwf k af haf
      rw [haf]
      have h0 : countKey [] k = 0 := rfl
      have h1 : sumKey [] k = 0 := rfl
      rw [h0, h1, accrue_zero af hr.1 hr.2.1 hr.2.2]
    · intro hnone
      exact ⟨fun e0 he0 => (nomatch he0), fun _ => hnone⟩
  | cons r rest ih =>
    intro m mf hwf hagg k
    cases r with
    | error msg => rw [aggregate] at hagg; cases hagg
    | ok e =>
      obtain ⟨m', hok, hother, hsome, hnone⟩ := step_spec m e
      rw [aggregate, hok] at hagg
      have hwf' : WFm m' := step_WF m e m' hwf hok
      have IH := ih m' mf hwf' hagg k
      by_cases hk : e.account_id = k
      · subst hk
        rw [countKey_cons_ok, sumKey_cons_ok, find?_okEntries_cons]
        simp only [eq_self_iff_true, if_true]
        refine ⟨?_, ?_⟩
        · intro af haf
          have h1 := hsome af haf
          have h2 := IH.1 (af.add_fee e.amount) h1
          rw [h2, accrue_add_fee]
        · intro hm0
          refine ⟨?_, ?_⟩
          · intro e0 he0
            cases he0
            have h1 := hnone hm0
            have h2 := IH.1 _ h1
            rw [h2, accrue_add_fee]
          · intro h
            cases h
      · rw [countKey_cons_ok, sumKey_cons_ok, find?_okEntries_cons]
        simp only [if_neg hk]
        have heq : lookupS m' k = lookupS m k :=
          hother k (fun h => hk h.symm)
        refine ⟨?_, ?_⟩
        · intro af haf
          exact IH.1 af (by rw [heq, haf])
        · intro hm0
          exact IH.2 (by rw [heq, hm0])

/-- Claim C3: the summary entry of a key carries the User Email of the
first row with that key — the accumulator is created at the key's first
sighting and later rows never change its email (nor its id). -/
theorem claim_C3_email_first_writer_wins (rows : List (Except String Entry))
    (mf : Summary) (hagg : aggregate rows [] = .ok mf) (k : String) (e0 : Entry)
    (hfind : (okEntries rows).find? (fun e => e.account_id = k) = some e0) :
    ∃ af, lookupS mf k = some af ∧ af.email = e0.email ∧ af.account_id = k := by
  have h := (aggregate_lookup rows [] mf WFm_nil hagg k).2 rfl
  exact ⟨_, h.1 e0 hfind, rfl, rfl⟩

theorem claim_C3_email_first_writer_wins_witness :
    ∃ af, lookupS [("acct_X", ⟨"acct_X", "a@x", 2, 175⟩)] "acct_X" = some af ∧
      af.email = "a@x" ∧ af.account_id = "acct_X" :=
  claim_C3_email_first_writer_wins
    [Except.ok ⟨25, "acct_X", "a@x"⟩, Except.ok ⟨150, "acct_X", "b@x"⟩]
    [("acct_X", ⟨"acct_X", "a@x", 2, 175⟩)] rfl "acct_X"
    ⟨25, "acct_X", "a@x"⟩ (by decide)

/-! ## Totals across the whole summary -/

theorem mapTotal_insertS (m : Summary) (k : String) (v : AccountFees) :
    mapTotal (insertS m k v) = mapTotal m + v.total_fees := by
  simp [mapTotal, insertS]

theorem mapTotal_updateS (m : Summary) (k : String) (v af : AccountFees)
    (h : lookupS m k = some af) :
    mapTotal (updateS m k v) = mapTotal m - af.total_fees + v.total_fees := by
  induction m with
  | nil => cases h
  | cons hd t ih =>
    obtain ⟨k', v'⟩ := hd
    by_cases hk : k' = k
    · subst hk
      rw [lookupS, if_pos rfl] at h
      cases h
      simp only [updateS, eq_self_iff_true, if_true, mapTotal, List.map_cons,
        List.sum_cons]
      ring
    · rw [lookupS, if_neg hk] at h
      simp only [updateS, if_neg hk, mapTotal, List.map_cons, List.sum_cons]
      have h2 := ih h
      simp only [mapTotal] at h2
      rw [h2]
      ring

theorem step_mapTotal (m : Summary) (e : Entry) (m' : Summary)
    (h : step m e = .ok m') :
    wrap64 (mapTotal m') = wrap64 (mapTotal m + e.amount) := by
  rw [step] at h
  cases hc : containsS m e.account_id with
  | true =>
    rw [hc] at h
    simp only [if_true] at h
    rw [containsS, Option.isSome_iff_exists] at hc
    obtain ⟨af, haf⟩ := hc
    rw [haf] at h
    cases h
    rw [mapTotal_updateS m e.account_id _ af haf]
    unfold AccountFees.add_fee wrap64
    simp only
    omega
  | false =>
    rw [hc] at h
    simp only [Bool.false_eq_true, if_false] at h
    have hnone : lookupS m e.account_id = none := by
      rw [containsS] at hc
      exact Option.not_isSome_iff_eq_none.mp (by simp [hc])
    have hins := lookupS_insertS_self m e.account_id
      (AccountFees.new e.account_id e.email) hnone
    rw [hins] at h
    cases h
    rw [mapTotal_updateS _ e.account_id _ _ hins, mapTotal_insertS]
    unfold AccountFees.new AccountFees.add_fee wrap64
    simp only
    omega

theorem aggregate_mapTotal (rows : List (Except String Entry)) :
    ∀ m mf, aggregate rows m = .ok mf →
      wrap64 (mapTotal mf) = wrap64 (mapTotal m + sumAll rows) := by
  induction rows with
  | nil =>
    intro m mf hagg
    cases hagg
    have h0 : sumAll [] = 0 := rfl
    rw [h0, Int.add_zero]
  | cons r rest ih =>
    intro m mf hagg
    cases r with
    | error msg => rw [aggregate] at hagg; cases hagg
    | ok e =>
      obtain ⟨m', hok⟩ := step_isOk m e
      rw [aggregate, hok] at hagg
      have h1 := ih m' mf hagg
      have h2 := step_mapTotal m e m' hok
      have h3 : sumAll (Except.ok e :: rest) = e.amount + sumAll rest := by
        simp [sumAll, okEntries_cons_ok]
      rw [h3, h1, ← Int.add_assoc]
      exact wrap64_add_right _ _ _ h2

/-- Claim C2 (amended): per key, `transaction_count` is the number of
rows with that key reduced modulo `2 ^ 32` and `total_fees` is their sum
wrapped to `i64`; both are exact whenever the count stays below `2 ^ 32`
and the sum inside the `i64` range.  The grand total of `total_fees`
equals the sum of all row amounts modulo `2 ^ 64`. -/
theorem claim_C2_aggregation_totals (rows : List (Except String Entry))
    (mf : Summary) (hagg : aggregate rows [] = .ok mf) :
    (∀ k af, lookupS mf k = some af →
      af.transaction_count = countKey rows k % 2 ^ 32 ∧
      af.total_fees = wrap64 (sumKey rows k) ∧
      (countKey rows k < 2 ^ 32 → af.transaction_count = countKey rows k) ∧
      (-(2 ^ 63) ≤ sumKey rows k ∧ sumKey rows k < 2 ^ 63 →
        af.total_fees = sumKey rows k)) ∧
    wrap64 (mapTotal mf) = wrap64 (sumAll rows) := by
  constructor
  · intro k af haf
    have h := (aggregate_lookup rows [] mf WFm_nil hagg k).2 rfl
    cases hfind : (okEntries rows).find? (fun e => e.account_id = k) with
    | none => rw [h.2 hfind] at haf; cases haf
    | some e0 =>
      rw [h.1 e0 hfind] at haf
      cases haf
      refine ⟨?_, ?_, ?_, ?_⟩
      · rw [accrue, AccountFees.new]
        simp only [Nat.zero_add]
        rfl
      · rw [accrue, AccountFees.new]
        simp only [Int.zero_add]
      · intro hlt
        rw [accrue, AccountFees.new]
        simp only [Nat.zero_add]
        exact wrap32_of_lt _ hlt
      · intro hrange
        rw [accrue, AccountFees.new]
        simp only [Int.zero_add]
        exact wrap64_of_range _ hrange.1 hrange.2
  · have h := aggregate_mapTotal rows [] mf hagg
    have h0 : mapTotal [] = 0 := rfl
    rw [h0, Int.zero_add] at h
    exact h

theorem claim_C2_aggregation_totals_witness :
    (∀ k af,
      lookupS [("acct_X", ⟨"acct_X", "a@x", 2, 175⟩)] k = some af →
      af.transaction_count =
        countKey [Except.ok ⟨25, "acct_X", "a@x"⟩, Except.ok ⟨150, "acct_X", "b@x"⟩] k
          % 2 ^ 32 ∧
      af.total_fees =
        wrap64 (sumKey [Except.ok ⟨25, "acct_X", "a@x"⟩, Except.ok ⟨150, "acct_X", "b@x"⟩] k) ∧
      (countKey [Except.ok ⟨25, "acct_X", "a@x"⟩, Except.ok ⟨150, "acct_X", "b@x"⟩] k < 2 ^ 32 →
        af.transaction_count =
          countKey [Except.ok ⟨25, "acct_X", "a@x"⟩, Except.ok ⟨150, "acct_X", "b@x"⟩] k) ∧
      (-(2 ^ 63) ≤ sumKey [Except.ok ⟨25, "acct_X", "a@x"⟩, Except.ok ⟨150, "acct_X", "b@x"⟩] k ∧
        sumKey [Except.ok ⟨25, "acct_X", "a@x"⟩, Except.ok ⟨150, "acct_X", "b@x"⟩] k < 2 ^ 63 →
        af.total_fees =
          sumKey [Except.ok ⟨25, "acct_X", "a@x"⟩, Except.ok ⟨150, "acct_X", "b@x"⟩] k)) ∧
    wrap64 (mapTotal [("acct_X", ⟨"acct_X", "a@x", 2, 175⟩)]) =
      wrap64 (sumAll [Except.ok ⟨25, "acct_X", "a@x"⟩, Except.ok ⟨150, "acct_X", "b@x"⟩]) :=
  claim_C2_aggregation_totals
    [Except.ok ⟨25, "acct_X", "a@x"⟩, Except.ok ⟨150, "acct_X", "b@x"⟩]
    [("acct_X", ⟨"acct_X", "a@x", 2, 175⟩)] rfl

/-- A stream of `2 ^ 32` zero-amount rows for one account, on which the
`u32` transaction counter wraps to zero. -/
def bigEntry : Entry := ⟨0, "acct", "m"⟩

def bigRows : List (Except String Entry) := List.replicate (2 ^ 32) (Except.ok bigEntry)

theorem okEntries_replicate (n : ℕ) (e : Entry) :
    okEntries (List.replicate n (Except.ok e)) = List.replicate n e := by
  induction n with
  | zero => rfl
  | succ n ih =>
    rw [List.replicate_succ, List.replicate_succ, okEntries_cons_ok, ih]

theorem countKey_sumKey_replicate (n : ℕ) :
    countKey (List.replicate n (Except.ok bigEntry)) "acct" = n ∧
    sumKey (List.replicate n (Except.ok bigEntry)) "acct" = 0 := by
  induction n with
  | zero => exact ⟨rfl, rfl⟩
  | succ n ih =>
    rw [List.replicate_succ, countKey_cons_ok, sumKey_cons_ok]
    have hid : bigEntry.account_id = "acct" := rfl
    rw [if_pos hid, if_pos hid, ih.1, ih.2]
    exact ⟨rfl, rfl⟩

/-- Claim C2 as stated is false: on `2 ^ 32` rows for one account the
stored `transaction_count` is `0`, not the number of rows (`u32`
wrap-around; under overflow checks the same input panics instead). -/
theorem claim_C2_counterexample :
    ∃ mf af, aggregate bigRows [] = Except.ok mf ∧
      lookupS mf "acct" = some af ∧
      countKey bigRows "acct" = 2 ^ 32 ∧
      af.transaction_count = 0 ∧
      af.transaction_count ≠ countKey bigRows "acct" := by
  obtain ⟨mf, hmf⟩ := aggregate_ok_of_all_ok bigRows []
    (fun r hr => ⟨bigEntry, List.eq_of_mem_replicate hr⟩)
  have hfind : (okEntries bigRows).find? (fun e => e.account_id = "acct")
      = some bigEntry := by
    rw [bigRows, okEntries_replicate]
    have h32 : (2 ^ 32 : ℕ) = 2 ^ 32 - 1 + 1 := by norm_num
    rw [h32, List.replicate_succ]
    exact List.find?_cons_of_pos _ (by simp [bigEntry])
  have h := (aggregate_lookup bigRows [] mf WFm_nil hmf "acct").2 rfl
  have hlk := h.1 bigEntry hfind
  have hc : countKey bigRows "acct" = 2 ^ 32 := by
    rw [bigRows]
    exact (countKey_sumKey_replicate (2 ^ 32)).1
  refine ⟨mf, _, hmf, hlk, hc, ?_, ?_⟩
  · show wrap32 ((AccountFees.new "acct" bigEntry.email).transaction_count
      + countKey bigRows "acct") = 0
    rw [hc, AccountFees.new]
    decide
  · show wrap32 ((AccountFees.new "acct" bigEntry.email).transaction_count
      + countKey bigRows "acct") ≠ countKey bigRows "acct"
    rw [hc, AccountFees.new]
    decide

theorem claim_C7_default_output_witness :
    deriveOutput ⟨["tmp"], "data.csv"⟩ = ⟨["tmp"], "data_out.csv"⟩ ∧
    parseTrace ⟨["tmp"], "data.csv"⟩ true
        (some (deriveOutput ⟨["tmp"], "data.csv"⟩)) false [] =
      parseTrace ⟨["tmp"], "data.csv"⟩ true none false [] :=
  ⟨((claim_C7_default_output ⟨["tmp"], "data.csv"⟩ "data" (by decide)).1).trans (by decide),
   (claim_C7_default_output ⟨["tmp"], "data.csv"⟩ "data" (by decide)).2 true false []⟩

/-! ## Character-level facts for the amount grammar -/

theorem isDigit_comp_caseFold : Char.isDigit ∘ caseFold = Char.isDigit := by
  funext c
  simp only [Function.comp]
  unfold caseFold
  split_ifs with h1 h2 h3 h4 h5 h6 <;> subst_vars <;> rfl

theorem isDigit_comp_conv :
    (Char.isDigit ∘ fun c => if c = ',' then '.' else c) = Char.isDigit := by
  funext c
  simp only [Function.comp]
  by_cases hc : c = ','
  · subst hc; rfl
  · rw [if_neg hc]

theorem digitOrDot_comp_conv :
    ((fun c : Char => c.isDigit || decide (c = '.')) ∘ fun c => if c = ',' then '.' else c)
      = fun c => c.isDigit || isSep c := by
  funext c
  simp only [Function.comp]
  by_cases h1 : c = ','
  · subst h1; rfl
  · simp only [if_neg h1]
    by_cases h2 : c = '.'
    · subst h2; rfl
    · simp [isSep, h1, h2]

theorem eqDot_comp_conv :
    ((fun c : Char => decide (c = '.')) ∘ fun c => if c = ',' then '.' else c)
      = isSep := by
  funext c
  simp only [Function.comp]
  by_cases h1 : c = ','
  · subst h1; rfl
  · simp only [if_neg h1]
    by_cases h2 : c = '.'
    · subst h2; rfl
    · simp [isSep, h1, h2]

theorem commaToDot_idem (l : List Char) : commaToDot (commaToDot l) = commaToDot l := by
  simp only [commaToDot, List.map_map]
  apply List.map_congr_left
  intro c _
  simp only [Function.comp]
  by_cases hc : c = ','
  · subst hc; rfl
  · rw [if_neg hc, if_neg hc]

theorem commaToDot_cons (c : Char) (t : List Char) :
    commaToDot (c :: t) = (if c = ',' then '.' else c) :: commaToDot t := rfl

theorem takeSign_commaToDot (l : List Char) :
    takeSign (commaToDot l) = ((takeSign l).1, commaToDot (takeSign l).2) := by
  cases l with
  | nil => rfl
  | cons c t =>
    by_cases h1 : c = '+'
    · subst h1; rfl
    · by_cases h2 : c = '-'
      · subst h2; rfl
      · by_cases h3 : c = ','
        · subst h3; rfl
        · have hts : takeSign (c :: t) = (false, c :: t) := by
            show (if c = '+' then (false, t) else if c = '-' then (true, t)
              else (false, c :: t)) = (false, c :: t)
            rw [if_neg h1, if_neg h2]
          have htsd : takeSign ((if c = ',' then '.' else c) :: commaToDot t)
              = (false, c :: commaToDot t) := by
            rw [if_neg h3]
            show (if c = '+' then (false, commaToDot t)
              else if c = '-' then (true, commaToDot t)
              else (false, c :: commaToDot t)) = (false, c :: commaToDot t)
            rw [if_neg h1, if_neg h2]
          rw [commaToDot_cons, htsd, hts]
          show (false, c :: commaToDot t) = (false, commaToDot (c :: t))
          rw [commaToDot_cons, if_neg h3]

theorem parseNumPart_some (nf : Bool) (l : List Char)
    (hany : l.any Char.isDigit = true)
    (hall : l.all (fun c => c.isDigit || decide (c = '.')) = true)
    (hsep : l.countP (fun c => decide (c = '.')) ≤ 1) :
    ∃ v, parseNumPart nf l = some v := by
  have hsplit : l.takeWhile Char.isDigit ++ l.dropWhile Char.isDigit = l :=
    List.takeWhile_append_dropWhile Char.isDigit l
  cases hr1 : l.dropWhile Char.isDigit with
  | nil =>
    have hd1 : l.takeWhile Char.isDigit = l := by
      rw [hr1, List.append_nil] at hsplit
      exact hsplit
    have hne : l.takeWhile Char.isDigit ≠ [] := by
      rw [hd1]
      intro hnil
      rw [hnil] at hany
      cases hany
    refine ⟨roundF64 (decValue nf (l.takeWhile Char.isDigit) [] 0), ?_⟩
    simp only [parseNumPart, hr1]
    rw [if_neg hne]
    rfl
  | cons c t =>
    have hcd : Char.isDigit c = false := by
      have hw := List.head?_dropWhile_not Char.isDigit l
      rw [hr1] at hw
      simpa using hw
    have hl := hsplit.symm
    rw [hr1] at hl
    have hcmem : c ∈ l := by
      rw [hl]
      exact List.mem_append_right _ (List.mem_cons_self _ _)
    have hcdot : c = '.' := by
      have hx := (List.all_eq_true.mp hall) c hcmem
      rw [hcd] at hx
      simpa using hx
    subst hcdot
    have htnodot : ∀ x ∈ t, ¬(x = '.') := by
      intro x hx hxe
      subst hxe
      have hpos : 0 < t.countP (fun c => decide (c = '.')) :=
        List.countP_pos_iff.mpr ⟨'.', hx, by simp⟩
      have hc2 := hsep
      rw [hl, List.countP_append, List.countP_cons] at hc2
      simp at hc2
      omega
    have htall : ∀ x ∈ t, Char.isDigit x = true := by
      intro x hx
      have hxl : x ∈ l := by
        rw [hl]
        exact List.mem_append_right _ (List.mem_cons_of_mem _ hx)
      have := (List.all_eq_true.mp hall) x hxl
      rcases Bool.or_eq_true_iff.mp this with h | h
      · exact h
      · exact absurd (by simpa using h) (htnodot x hx)
    have htw : t.takeWhile Char.isDigit = t :=
      List.takeWhile_eq_self_iff.mpr htall
    have hdw : t.dropWhile Char.isDigit = [] :=
      List.dropWhile_eq_nil_iff.mpr htall
    have hne : ¬(l.takeWhile Char.isDigit = [] ∧ t = []) := by
      rintro ⟨hh1, hh2⟩
      rw [hl, hh1, hh2] at hany
      cases hany
    refine ⟨roundF64 (decValue nf (l.takeWhile Char.isDigit) t 0), ?_⟩
    simp only [parseNumPart, hr1, htw, hdw]
    rw [if_neg hne]
    rfl

/-- Claim C4 (amended, positive part): every string of the spec's
claimed grammar is accepted by `parse_amount`.  (The code also accepts
strictly more: exponent forms and the words inf / infinity / nan, see
the counterexample; empty and non-numeric text are rejected.) -/
theorem claim_C4_amount_grammar :
    (∀ s : String, claimedGrammar s = true → (parseAmount s).isSome = true) ∧
    parseAmount "" = none ∧ parseAmount "invalid" = none := by
  refine ⟨?_, by decide, by decide⟩
  intro s h
  rw [claimedGrammar] at h
  simp only [Bool.and_eq_true, decide_eq_true_eq] at h
  obtain ⟨⟨hany, hall⟩, hsep⟩ := h
  have hts := takeSign_commaToDot s.data
  have hany' : (commaToDot (takeSign s.data).2).any Char.isDigit = true := by
    rw [commaToDot, List.any_map, isDigit_comp_conv]
    exact hany
  have hall' :
      (commaToDot (takeSign s.data).2).all (fun c => c.isDigit || decide (c = '.'))
        = true := by
    rw [commaToDot, List.all_map, digitOrDot_comp_conv]
    exact hall
  have hsep' :
      (commaToDot (takeSign s.data).2).countP (fun c => decide (c = '.')) ≤ 1 := by
    rw [commaToDot, List.countP_map, eqDot_comp_conv, List.countP_eq_length_filter]
    exact hsep
  obtain ⟨v, hv⟩ := parseNumPart_some (takeSign s.data).1
    (commaToDot (takeSign s.data).2) hany' hall' hsep'
  have hfold : ((commaToDot (takeSign s.data).2).map caseFold).any Char.isDigit
      = true := by
    rw [List.any_map, isDigit_comp_caseFold]
    exact hany'
  have hninf : ¬((commaToDot (takeSign s.data).2).map caseFold = "inf".toList ∨
      (commaToDot (takeSign s.data).2).map caseFold = "infinity".toList) := by
    rintro (he | he) <;> rw [he] at hfold <;> cases hfold
  have hnnan : ¬((commaToDot (takeSign s.data).2).map caseFold = "nan".toList) := by
    intro he
    rw [he] at hfold
    cases hfold
  rw [parseAmount]
  have hrw : rustParseF64 (commaToDot s.data) = some v := by
    rw [rustParseF64, hts]
    simp only
    rw [if_neg hninf, if_neg hnnan]
    exact hv
  rw [hrw]
  rfl

theorem claim_C4_amount_grammar_witness :
    claimedGrammar "1,5" = true ∧ (parseAmount "1,5").isSome = true :=
  ⟨by decide, claim_C4_amount_grammar.1 "1,5" (by decide)⟩

/-- Claim C4 as stated is false: `parse_amount` also succeeds on inputs
outside the claimed grammar, e.g. the exponent form `1e2` (value 100,
stored as 10000 cents). -/
theorem claim_C4_counterexample :
    parseAmount "1e2" = some 10000 ∧ claimedGrammar "1e2" = false := by
  constructor
  · decide
  · decide

/-- Claim C1 as stated is false: the code parses through binary64, so
`parse_amount "0.285"` yields 28 while the exact value 0.285 times 100
rounded half away from zero is 29. -/
theorem claim_C1_counterexample :
    parseAmount "0.285" = some 28 ∧ specParseAmount "0.285" = some 29 := by
  constructor
  · decide
  · decide

/-! ## Valuation lemmas for the executable rationals -/

namespace Q

theorem val_ofInt (z : ℤ) : (ofInt z).val = (z : ℚ) := by
  simp [ofInt, val]

theorem val_num_zero (a : Q) (hd : 0 < a.d) : a.val = 0 ↔ a.n = 0 := by
  rw [val, div_eq_zero_iff]
  constructor
  · rintro (h | h)
    · exact_mod_cast h
    · exfalso
      have : (a.d : ℚ) ≠ 0 := by exact_mod_cast hd.ne'
      exact this h
  · intro h
    left
    exact_mod_cast h

theorem val_neg_iff (a : Q) (hd : 0 < a.d) : a.val < 0 ↔ a.n < 0 := by
  rw [val, div_neg_iff]
  have hdq : (0 : ℚ) < a.d := by exact_mod_cast hd
  constructor
  · rintro (⟨-, h⟩ | ⟨h, -⟩)
    · exact absurd hdq (not_lt.mpr h.le)
    · exact_mod_cast h
  · intro h
    right
    exact ⟨by exact_mod_cast h, hdq⟩

theorem val_pos_iff (a : Q) (hd : 0 < a.d) : 0 < a.val ↔ 0 < a.n := by
  rw [val, div_pos_iff]
  have hdq : (0 : ℚ) < a.d := by exact_mod_cast hd
  constructor
  · rintro (⟨h, -⟩ | ⟨-, h⟩)
    · exact_mod_cast h
    · exact absurd hdq (not_lt.mpr h.le)
  · intro h
    left
    exact ⟨by exact_mod_cast h, hdq⟩

theorem val_mul (a b : Q) (ha : 0 < a.d) (hb : 0 < b.d) :
    (a.mul b).val = a.val * b.val := by
  rw [mul, val, val, val]
  have h1 : (a.d : ℚ) ≠ 0 := by exact_mod_cast ha.ne'
  have h2 : (b.d : ℚ) ≠ 0 := by exact_mod_cast hb.ne'
  push_cast
  field_simp

theorem mul_d_pos (a b : Q) (ha : 0 < a.d) (hb : 0 < b.d) : 0 < (a.mul b).d :=
  Int.mul_pos ha hb

theorem val_qabs (a : Q) (hd : 0 < a.d) : a.qabs.val = |a.val| := by
  rw [qabs, val, val, abs_div]
  have : |(a.d : ℚ)| = (a.d : ℚ) := abs_of_pos (by exact_mod_cast hd)
  rw [this]
  congr 1
  show ((a.n.natAbs : ℤ) : ℚ) = |(a.n : ℚ)|
  rw [Int.cast_natCast, Int.cast_natAbs, Int.cast_abs]

theorem qabs_d_pos (a : Q) (hd : 0 < a.d) : 0 < a.qabs.d := hd

theorem val_pow2 (s : ℤ) : (pow2 s).val = (2 : ℚ) ^ s := by
  rw [pow2]
  by_cases h : 0 ≤ s
  · rw [if_pos h, val]
    push_cast
    rw [div_one, ← zpow_natCast, Int.toNat_of_nonneg h]
  · rw [if_neg h, val]
    push_cast
    rw [one_div, ← zpow_natCast, Int.toNat_of_nonneg (by omega : (0:ℤ) ≤ -s),
      ← zpow_neg, neg_neg]

theorem pow2_n_pos (s : ℤ) : 0 < (pow2 s).n := by
  rw [pow2]
  by_cases h : 0 ≤ s
  · rw [if_pos h]
    show (0 : ℤ) < ((2 ^ s.toNat : ℕ) : ℤ)
    positivity
  · rw [if_neg h]
    norm_num

theorem pow2_d_pos (s : ℤ) : 0 < (pow2 s).d := by
  rw [pow2]
  by_cases h : 0 ≤ s
  · rw [if_pos h]
    norm_num
  · rw [if_neg h]
    show (0 : ℤ) < ((2 ^ (-s).toNat : ℕ) : ℤ)
    positivity

theorem val_div (a b : Q) (ha : 0 < a.d) (hb : 0 < b.d) (hbn : b.n ≠ 0) :
    (a.div b).val = a.val / b.val := by
  rw [div, if_neg hbn]
  have h1 : (a.d : ℚ) ≠ 0 := by exact_mod_cast ha.ne'
  have h2 : (b.d : ℚ) ≠ 0 := by exact_mod_cast hb.ne'
  have h3 : (b.n : ℚ) ≠ 0 := by exact_mod_cast hbn
  by_cases hk : a.d * b.n < 0
  · rw [if_pos hk]
    rw [val, val, val]
    push_cast
    field_simp
    try ring
  · rw [if_neg hk]
    rw [val, val, val]
    push_cast
    field_simp
    try ring

theorem div_d_pos (a b : Q) (ha : 0 < a.d) (hbn : b.n ≠ 0) : 0 < (a.div b).d := by
  rw [div, if_neg hbn]
  by_cases hk : a.d * b.n < 0
  · rw [if_pos hk]
    show (0 : ℤ) < -(a.d * b.n)
    omega
  · rw [if_neg hk]
    show (0 : ℤ) < a.d * b.n
    rcases lt_or_gt_of_ne hbn with h | h
    · exact absurd (mul_neg_of_pos_of_neg ha h) hk
    · exact Int.mul_pos ha h

theorem ble_val (a b : Q) (ha : 0 < a.d) (hb : 0 < b.d) :
    a.ble b = true ↔ a.val ≤ b.val := by
  rw [ble, val, val, decide_eq_true_eq]
  rw [div_le_div_iff₀ (by exact_mod_cast ha) (by exact_mod_cast hb)]
  constructor
  · intro h
    exact_mod_cast h
  · intro h
    exact_mod_cast h

theorem val_add (a b : Q) (ha : 0 < a.d) (hb : 0 < b.d) :
    (a.add b).val = a.val + b.val := by
  simp only [add, val]
  have ha' : ((a.d : ℤ) : ℚ) ≠ 0 := by exact_mod_cast ha.ne'
  have hb' : ((b.d : ℤ) : ℚ) ≠ 0 := by exact_mod_cast hb.ne'
  push_cast
  field_simp

theorem val_neg (a : Q) : a.neg.val = -a.val := by
  simp only [neg, val]
  push_cast
  ring

theorem floor_val (a : Q) (hd : 0 < a.d) : a.floor = ⌊a.val⌋ := by
  rw [floor, val, Int.fdiv_eq_ediv _ hd.le]
  have hdn : (a.d : ℚ) = ((a.d.toNat : ℕ) : ℚ) := by
    exact_mod_cast (congrArg (fun z : ℤ => (z : ℚ)) (Int.toNat_of_nonneg hd.le)).symm
  rw [hdn, Rat.floor_intCast_div_natCast, Int.toNat_of_nonneg hd.le]

end Q

/-! ## Correctness of the nearest-even rounding -/

theorem rne_close (q : Q) (hd : 0 < q.d) : |(rne q : ℚ) - q.val| ≤ 1 / 2 := by
  have hfl : q.floor = ⌊q.val⌋ := Q.floor_val q hd
  have hdq : (0 : ℚ) < q.d := by exact_mod_cast hd
  have hA : q.val - (q.floor : ℚ) = ((q.n - q.floor * q.d : ℤ) : ℚ) / (q.d : ℚ) := by
    rw [Q.val]
    push_cast
    field_simp
    ring
  have hfr0 : (0 : ℚ) ≤ q.val - (q.floor : ℚ) := by
    rw [hfl]
    have := Int.floor_le q.val
    linarith
  have hfr1 : q.val - (q.floor : ℚ) < 1 := by
    rw [hfl]
    have := Int.lt_floor_add_one q.val
    linarith
  have hiff1 : 2 * (q.n - q.floor * q.d) < q.d ↔ q.val - (q.floor : ℚ) < 1 / 2 := by
    rw [hA, div_lt_iff₀ hdq]
    rw [show (2 * (q.n - q.floor * q.d) < q.d) ↔
      (((2 * (q.n - q.floor * q.d) : ℤ) : ℚ) < (q.d : ℚ)) from Int.cast_lt.symm]
    push_cast
    constructor <;> intro h <;> linarith
  have hiff2 : q.d < 2 * (q.n - q.floor * q.d) ↔ 1 / 2 < q.val - (q.floor : ℚ) := by
    rw [hA, lt_div_iff₀ hdq]
    rw [show (q.d < 2 * (q.n - q.floor * q.d)) ↔
      (((q.d : ℤ) : ℚ) < ((2 * (q.n - q.floor * q.d) : ℤ) : ℚ)) from Int.cast_lt.symm]
    push_cast
    constructor <;> intro h <;> linarith
  rw [rne]
  by_cases h1 : 2 * (q.n - q.floor * q.d) < q.d
  · rw [if_pos h1]
    have := hiff1.mp h1
    rw [abs_le]
    constructor <;> linarith
  · rw [if_neg h1]
    by_cases h2 : q.d < 2 * (q.n - q.floor * q.d)
    · rw [if_pos h2]
      have := hiff2.mp h2
      rw [abs_le]
      push_cast
      constructor <;> linarith
    · rw [if_neg h2]
      have heq : q.val - (q.floor : ℚ) = 1 / 2 := by
        have ha := hiff1.not.mp h1
        have hb := hiff2.not.mp h2
        push_neg at ha hb
        linarith
      by_cases h3 : q.floor % 2 = 0
      · rw [if_pos h3, abs_le]
        constructor <;> linarith
      · rw [if_neg h3, abs_le]
        push_cast
        constructor <;> linarith

theorem rne_of_close (q : Q) (hd : 0 < q.d) (z : ℤ)
    (h : |q.val - (z : ℚ)| < 1 / 2) : rne q = z := by
  have h1 := rne_close q hd
  have h2 : |(rne q : ℚ) - (z : ℚ)| < 1 := by
    calc |(rne q : ℚ) - (z : ℚ)|
        ≤ |(rne q : ℚ) - q.val| + |q.val - (z : ℚ)| := abs_sub_le _ _ _
      _ < 1 := by linarith
  have h3 : |rne q - z| < 1 := by exact_mod_cast h2
  rw [abs_lt] at h3
  omega

theorem rne_exact (q : Q) (hd : 0 < q.d) (z : ℤ) (h : q.val = (z : ℚ)) :
    rne q = z := by
  apply rne_of_close q hd
  rw [h]
  norm_num

theorem roundHalfAway_of_close (q : Q) (hd : 0 < q.d) (z : ℤ)
    (h : |q.val - (z : ℚ)| < 1 / 2) : roundHalfAway q = z := by
  have hhd : (0 : ℤ) < (⟨1, 2⟩ : Q).d := by norm_num
  have hval2 : (⟨1, 2⟩ : Q).val = 1 / 2 := by norm_num [Q.val]
  rw [abs_lt] at h
  rw [roundHalfAway]
  by_cases hn : 0 ≤ q.n
  · have haddd : 0 < (q.add ⟨1, 2⟩).d := by
      simp only [Q.add]
      positivity
    rw [if_pos hn, Q.floor_val _ haddd, Q.val_add _ _ hd hhd, hval2, Int.floor_eq_iff]
    refine ⟨by linarith, by linarith⟩
  · have hnegd : 0 < (q.neg.add ⟨1, 2⟩).d := by
      simp only [Q.add, Q.neg]
      positivity
    rw [if_neg hn, Q.floor_val _ hnegd,
      Q.val_add _ _ (show 0 < q.neg.d from hd) hhd, Q.val_neg, hval2]
    have hfl : ⌊-q.val + 1 / 2⌋ = -z := by
      rw [Int.floor_eq_iff]
      refine ⟨by push_cast; linarith, by push_cast; linarith⟩
    rw [hfl, neg_neg]

theorem roundHalfAway_exact (q : Q) (hd : 0 < q.d) (z : ℤ)
    (h : q.val = (z : ℚ)) : roundHalfAway q = z :=
  roundHalfAway_of_close q hd z (by rw [h]; norm_num)

theorem ratTrunc_ofInt (z : ℤ) : ratTrunc (Q.ofInt z) = z := by
  rw [ratTrunc]
  by_cases h : 0 ≤ (Q.ofInt z).n
  · rw [if_pos h, Q.floor_val _ (by norm_num [Q.ofInt]), Q.val_ofInt, Int.floor_intCast]
  · rw [if_neg h]
    have hneg : (Q.ofInt z).neg = Q.ofInt (-z) := rfl
    rw [hneg, Q.floor_val _ (by norm_num [Q.ofInt]), Q.val_ofInt, Int.floor_intCast,
      neg_neg]

/-! ## Correctness of the bit length and binary exponent -/

theorem bitlenF_zero (f : ℕ) : bitlenF f 0 = 0 := by
  cases f <;> rfl

theorem bitlenF_spec (f : ℕ) : ∀ n, n < 2 ^ f → n ≠ 0 →
    2 ^ (bitlenF f n - 1) ≤ n ∧ n < 2 ^ bitlenF f n := by
  induction f with
  | zero =>
    intro n hlt hne
    exfalso
    rw [pow_zero] at hlt
    omega
  | succ f ih =>
    intro n hlt hne
    rw [bitlenF, if_neg hne]
    by_cases hh : n / 2 = 0
    · have hn1 : n = 1 := by omega
      subst hn1
      rw [hh, bitlenF_zero]
      norm_num
    · have hlt2 : n / 2 < 2 ^ f := by
        rw [pow_succ] at hlt
        omega
      obtain ⟨ih1, ih2⟩ := ih (n / 2) hlt2 hh
      have hk1 : 1 ≤ bitlenF f (n / 2) := by
        by_contra hc
        have : bitlenF f (n / 2) = 0 := by omega
        rw [this] at ih2
        omega
      have e1 : 2 ^ bitlenF f (n / 2) = 2 * 2 ^ (bitlenF f (n / 2) - 1) := by
        rw [← pow_succ']
        congr 1
        omega
      have e2 : 2 ^ (bitlenF f (n / 2) + 1) = 2 * 2 ^ bitlenF f (n / 2) := by
        rw [← pow_succ']
      constructor
      · have : bitlenF f (n / 2) + 1 - 1 = bitlenF f (n / 2) := by omega
        rw [this]
        omega
      · rw [e2]
        omega

theorem bitlen_spec (n : ℕ) (hlt : n < 2 ^ 256) (hne : n ≠ 0) :
    2 ^ (bitlen n - 1) ≤ n ∧ n < 2 ^ bitlen n :=
  bitlenF_spec 256 n hlt hne

theorem qexp_spec (q : Q) (hd : 0 < q.d) (hn : q.n ≠ 0)
    (hnum : q.n.natAbs < 2 ^ 256) (hden : q.d.natAbs < 2 ^ 256) :
    (2 : ℚ) ^ qexp q ≤ |q.val| ∧ |q.val| < 2 ^ (qexp q + 1) := by
  have hnA : q.n.natAbs ≠ 0 := Int.natAbs_ne_zero.mpr hn
  have hdA : q.d.natAbs ≠ 0 := Int.natAbs_ne_zero.mpr hd.ne'
  obtain ⟨ha1, ha2⟩ := bitlen_spec q.n.natAbs hnum hnA
  obtain ⟨hb1, hb2⟩ := bitlen_spec q.d.natAbs hden hdA
  have hA1 : 1 ≤ bitlen q.n.natAbs := by
    by_contra hc
    have h0 : bitlen q.n.natAbs = 0 := by omega
    rw [h0, pow_zero] at ha2
    omega
  have hB1 : 1 ≤ bitlen q.d.natAbs := by
    by_contra hc
    have h0 : bitlen q.d.natAbs = 0 := by omega
    rw [h0, pow_zero] at hb2
    omega
  have hdApos : (0 : ℚ) < (q.d.natAbs : ℚ) := by
    exact_mod_cast Nat.pos_of_ne_zero hdA
  have habs : |q.val| = (q.n.natAbs : ℚ) / (q.d.natAbs : ℚ) := by
    rw [Q.val, abs_div]
    congr 1
    · rw [← Int.cast_abs, Int.abs_eq_natAbs, Int.cast_natCast]
    · rw [← Int.cast_abs, Int.abs_eq_natAbs, Int.cast_natCast]
  set a := bitlen q.n.natAbs
  set b := bitlen q.d.natAbs
  have hq_a2 : (q.n.natAbs : ℚ) < (2 : ℚ) ^ (a : ℤ) := by
    have h0 : ((q.n.natAbs : ℕ) : ℚ) < ((2 ^ a : ℕ) : ℚ) := by exact_mod_cast ha2
    rw [zpow_natCast]
    push_cast at h0
    exact h0
  have hq_a1 : (2 : ℚ) ^ ((a : ℤ) - 1) ≤ (q.n.natAbs : ℚ) := by
    have h0 : ((2 ^ (a - 1) : ℕ) : ℚ) ≤ (q.n.natAbs : ℚ) := by exact_mod_cast ha1
    have h1 : ((2 ^ (a - 1) : ℕ) : ℚ) = (2 : ℚ) ^ ((a : ℤ) - 1) := by
      push_cast
      rw [← zpow_natCast]
      congr 1
      omega
    rwa [h1] at h0
  have hq_b2 : (q.d.natAbs : ℚ) < (2 : ℚ) ^ (b : ℤ) := by
    have h0 : ((q.d.natAbs : ℕ) : ℚ) < ((2 ^ b : ℕ) : ℚ) := by exact_mod_cast hb2
    rw [zpow_natCast]
    push_cast at h0
    exact h0
  have hq_b1 : (2 : ℚ) ^ ((b : ℤ) - 1) ≤ (q.d.natAbs : ℚ) := by
    have h0 : ((2 ^ (b - 1) : ℕ) : ℚ) ≤ (q.d.natAbs : ℚ) := by exact_mod_cast hb1
    have h1 : ((2 ^ (b - 1) : ℕ) : ℚ) = (2 : ℚ) ^ ((b : ℤ) - 1) := by
      push_cast
      rw [← zpow_natCast]
      congr 1
      omega
    rwa [h1] at h0
  have hU : |q.val| < 2 ^ ((a : ℤ) - b + 1) := by
    rw [habs, div_lt_iff₀ hdApos]
    calc (q.n.natAbs : ℚ) < 2 ^ (a : ℤ) := hq_a2
      _ = 2 ^ ((a : ℤ) - b + 1) * 2 ^ ((b : ℤ) - 1) := by
          rw [← zpow_add₀ (by norm_num : (2 : ℚ) ≠ 0)]
          congr 1
          ring
      _ ≤ 2 ^ ((a : ℤ) - b + 1) * (q.d.natAbs : ℚ) :=
          mul_le_mul_of_nonneg_left hq_b1 (zpow_pos (by norm_num) _).le
  have hL : 2 ^ ((a : ℤ) - b - 1) < |q.val| := by
    rw [habs, lt_div_iff₀ hdApos]
    calc (2 : ℚ) ^ ((a : ℤ) - b - 1) * (q.d.natAbs : ℚ)
        < 2 ^ ((a : ℤ) - b - 1) * 2 ^ (b : ℤ) :=
          mul_lt_mul_of_pos_left hq_b2 (zpow_pos (by norm_num) _)
      _ = 2 ^ ((a : ℤ) - 1) := by
          rw [← zpow_add₀ (by norm_num : (2 : ℚ) ≠ 0)]
          congr 1
          ring
      _ ≤ (q.n.natAbs : ℚ) := hq_a1
  have hqe : qexp q =
      if (Q.pow2 ((a : ℤ) - b)).ble q.qabs then (a : ℤ) - b
      else (a : ℤ) - b - 1 := rfl
  by_cases hc : (Q.pow2 ((a : ℤ) - b)).ble q.qabs = true
  · rw [hqe, if_pos hc]
    have h1 := (Q.ble_val _ _ (Q.pow2_d_pos _) (Q.qabs_d_pos q hd)).mp hc
    rw [Q.val_pow2, Q.val_qabs q hd] at h1
    exact ⟨h1, hU⟩
  · rw [hqe, if_neg hc]
    have h1 : ¬((2 : ℚ) ^ ((a : ℤ) - b) ≤ |q.val|) := by
      intro hle
      exact hc ((Q.ble_val _ _ (Q.pow2_d_pos _) (Q.qabs_d_pos q hd)).mpr
        (by rw [Q.val_pow2, Q.val_qabs q hd]; exact hle))
    push_neg at h1
    refine ⟨hL.le, ?_⟩
    have h2 : (a : ℤ) - b - 1 + 1 = (a : ℤ) - b := by ring
    rw [h2]
    exact h1

/-! ## The rounding step of roundF64 -/

theorem roundF64_spec (q : Q) (hd : 0 < q.d) (hn : q.n ≠ 0)
    (hnum : q.n.natAbs < 2 ^ 256) (hden : q.d.natAbs < 2 ^ 256)
    (heL : -1022 ≤ qexp q) (heU : qexp q ≤ 1022) :
    ∃ k : ℤ, k = rne (q.div (Q.pow2 (qexp q - 52))) ∧
      roundF64 q = .finite ((Q.ofInt k).mul (Q.pow2 (qexp q - 52))) ∧
      ((Q.ofInt k).mul (Q.pow2 (qexp q - 52))).val = (k : ℚ) * 2 ^ (qexp q - 52) ∧
      0 < ((Q.ofInt k).mul (Q.pow2 (qexp q - 52))).d ∧
      |(k : ℚ) * 2 ^ (qexp q - 52) - q.val| ≤ 2 ^ (qexp q - 53) ∧
      |k| ≤ 2 ^ 53 := by
  obtain ⟨hge, hlt⟩ := qexp_spec q hd hn hnum hden
  obtain ⟨e, hee⟩ : ∃ x, x = qexp q := ⟨qexp q, rfl⟩
  rw [← hee] at hge hlt heL heU ⊢
  obtain ⟨s, hs⟩ : ∃ x, x = e - 52 := ⟨e - 52, rfl⟩
  rw [← hs]
  have hsif : (if e - 52 < -1074 then (-1074 : ℤ) else e - 52) = s := by
    rw [if_neg (by omega)]
    omega
  have h2spos : (0 : ℚ) < 2 ^ s := zpow_pos (by norm_num) s
  have hxd : 0 < (q.div (Q.pow2 s)).d :=
    Q.div_d_pos q (Q.pow2 s) hd (Q.pow2_n_pos s).ne'
  have hxval : (q.div (Q.pow2 s)).val = q.val / 2 ^ s := by
    rw [Q.val_div q _ hd (Q.pow2_d_pos s) (Q.pow2_n_pos s).ne', Q.val_pow2]
  set k := rne (q.div (Q.pow2 s)) with hk
  have hkclose : |(k : ℚ) - (q.div (Q.pow2 s)).val| ≤ 1 / 2 :=
    rne_close (q.div (Q.pow2 s)) hxd
  have hrval : ((Q.ofInt k).mul (Q.pow2 s)).val = (k : ℚ) * 2 ^ s := by
    rw [Q.val_mul (Q.ofInt k) _ (by norm_num [Q.ofInt]) (Q.pow2_d_pos s),
      Q.val_ofInt, Q.val_pow2]
  have hrd : 0 < ((Q.ofInt k).mul (Q.pow2 s)).d :=
    Q.mul_d_pos _ _ (by norm_num [Q.ofInt]) (Q.pow2_d_pos s)
  have herr : |(k : ℚ) * 2 ^ s - q.val| ≤ 2 ^ (e - 53) := by
    have h1 : (k : ℚ) * 2 ^ s - q.val = ((k : ℚ) - (q.div (Q.pow2 s)).val) * 2 ^ s := by
      rw [hxval, sub_mul, div_mul_cancel₀ _ h2spos.ne']
    rw [h1, abs_mul, abs_of_pos h2spos]
    calc |(k : ℚ) - (q.div (Q.pow2 s)).val| * 2 ^ s
        ≤ 1 / 2 * 2 ^ s := mul_le_mul_of_nonneg_right hkclose h2spos.le
      _ = 2 ^ (e - 53) := by
          rw [show (1 : ℚ) / 2 = 2 ^ (-1 : ℤ) from by norm_num]
          rw [← zpow_add₀ (by norm_num : (2 : ℚ) ≠ 0)]
          congr 1
          omega
  have hxabs : |(q.div (Q.pow2 s)).val| < 2 ^ (53 : ℤ) := by
    rw [hxval, abs_div, abs_of_pos h2spos, div_lt_iff₀ h2spos]
    calc |q.val| < 2 ^ (e + 1) := hlt
      _ = 2 ^ (53 : ℤ) * 2 ^ s := by
          rw [← zpow_add₀ (by norm_num : (2 : ℚ) ≠ 0)]
          congr 1
          omega
  have hkabs : |(k : ℚ)| < 2 ^ (53 : ℤ) + 1 / 2 := by
    calc |(k : ℚ)| = |((k : ℚ) - (q.div (Q.pow2 s)).val) + (q.div (Q.pow2 s)).val| := by
          ring_nf
      _ ≤ |(k : ℚ) - (q.div (Q.pow2 s)).val| + |(q.div (Q.pow2 s)).val| := abs_add _ _
      _ < 1 / 2 + 2 ^ (53 : ℤ) := add_lt_add_of_le_of_lt hkclose hxabs
      _ = 2 ^ (53 : ℤ) + 1 / 2 := by ring
  have hk53 : |(k : ℚ)| ≤ 2 ^ (53 : ℤ) := by
    have hcast : ((2 ^ 53 : ℤ) : ℚ) = 2 ^ (53 : ℤ) := by
      rw [show (2 : ℚ) ^ (53 : ℤ) = (2 : ℚ) ^ (53 : ℕ) from zpow_natCast 2 53]
      push_cast
      norm_num
    have h1 : |k| < 2 ^ 53 + 1 := by
      have h2 : |(k : ℚ)| < ((2 ^ 53 + 1 : ℤ) : ℚ) := by
        push_cast [hcast]
        linarith
      exact_mod_cast h2
    have h3 : |k| ≤ 2 ^ 53 := by omega
    calc |(k : ℚ)| = ((|k| : ℤ) : ℚ) := Int.cast_abs.symm
      _ ≤ ((2 ^ 53 : ℤ) : ℚ) := by exact_mod_cast h3
      _ = 2 ^ (53 : ℤ) := hcast
  have hrabs : |(k : ℚ) * 2 ^ s| < 2 ^ (1024 : ℤ) := by
    rw [abs_mul, abs_of_pos h2spos]
    calc |(k : ℚ)| * 2 ^ s ≤ 2 ^ (53 : ℤ) * 2 ^ s :=
          mul_le_mul_of_nonneg_right hk53 h2spos.le
      _ = 2 ^ (53 + s) := (zpow_add₀ (by norm_num : (2 : ℚ) ≠ 0) _ _).symm
      _ ≤ 2 ^ (1023 : ℤ) := zpow_le_zpow_right₀ (by norm_num)
          (by omega : (53 : ℤ) + s ≤ 1023)
      _ < 2 ^ (1024 : ℤ) := zpow_lt_zpow_right₀ (by norm_num) (by norm_num)
  have hoverflow : ¬((Q.pow2 1024).ble (((Q.ofInt k).mul (Q.pow2 s)).qabs) = true) := by
    intro hc
    have h1 := (Q.ble_val _ _ (Q.pow2_d_pos _) (Q.qabs_d_pos _ hrd)).mp hc
    rw [Q.val_pow2, Q.val_qabs _ hrd, hrval] at h1
    exact absurd h1 (not_le.mpr hrabs)
  have hk53i : |k| ≤ 2 ^ 53 := by
    have hcast : ((2 ^ 53 : ℤ) : ℚ) = 2 ^ (53 : ℤ) := by
      rw [show (2 : ℚ) ^ (53 : ℤ) = (2 : ℚ) ^ (53 : ℕ) from zpow_natCast 2 53]
      push_cast
      norm_num
    have h2 : ((|k| : ℤ) : ℚ) ≤ ((2 ^ 53 : ℤ) : ℚ) := by
      rw [Int.cast_abs, hcast]
      exact hk53
    exact_mod_cast h2
  refine ⟨k, rfl, ?_, hrval, hrd, herr, hk53i⟩
  simp only [roundF64]
  rw [if_neg hn]
  rw [← hee, hsif]
  rw [if_neg hoverflow]

/-! ## Exactness of the i64 to f64 cast for small integers -/

theorem pow2_nonpos (s : ℤ) (hs : s ≤ 0) :
    Q.pow2 s = ⟨1, ((2 ^ (-s).toNat : ℕ) : ℤ)⟩ := by
  rcases eq_or_lt_of_le hs with h | h
  · subst h
    rfl
  · rw [Q.pow2, if_neg (by omega)]

theorem two_pow_toNat_cast (m : ℤ) (hm : 0 ≤ m) :
    ((2 ^ m.toNat : ℕ) : ℚ) = (2 : ℚ) ^ m := by
  rw [show (2 : ℚ) ^ m = (2 : ℚ) ^ (m.toNat : ℕ) from by
    rw [← zpow_natCast, Int.toNat_of_nonneg hm]]
  push_cast
  rfl

theorem div_ofInt_pos (a : Q) (m : ℤ) (hm : 0 < m) (ha : 0 < a.d) :
    a.div (Q.ofInt m) = ⟨a.n * 1, a.d * m⟩ := by
  simp only [Q.div, Q.ofInt]
  rw [if_neg hm.ne']
  rw [if_neg (by push_neg; exact (Int.mul_pos ha hm).le : ¬(a.d * m < 0))]

theorem cast_two_pow_52 : ((2 ^ 52 : ℤ) : ℚ) = (2 : ℚ) ^ (52 : ℤ) := by
  rw [show (2 : ℚ) ^ (52 : ℤ) = (2 : ℚ) ^ (52 : ℕ) from zpow_natCast 2 52]
  push_cast
  norm_num

theorem i64ToF64_exact (t : ℤ) (hn : t ≠ 0) (h1 : -(2 ^ 52) ≤ t) (h2 : t ≤ 2 ^ 52) :
    ∃ r : Q, i64ToF64 t = .finite r ∧ 0 < r.d ∧ r.val = (t : ℚ) ∧
      r.n.natAbs ≤ 2 ^ 104 ∧ r.d.natAbs ≤ 2 ^ 52 := by
  have hd : 0 < (Q.ofInt t).d := by norm_num [Q.ofInt]
  have hqn : (Q.ofInt t).n ≠ 0 := hn
  have hnum : (Q.ofInt t).n.natAbs < 2 ^ 256 := by
    show t.natAbs < 2 ^ 256
    omega
  have hden : (Q.ofInt t).d.natAbs < 2 ^ 256 := by
    show (1 : ℤ).natAbs < 2 ^ 256
    norm_num
  have hval : (Q.ofInt t).val = (t : ℚ) := Q.val_ofInt t
  obtain ⟨hge, hlt⟩ := qexp_spec (Q.ofInt t) hd hqn hnum hden
  rw [hval] at hge hlt
  have htabs : |(t : ℚ)| ≤ 2 ^ (52 : ℤ) := by
    have ha : |t| ≤ 2 ^ 52 := abs_le.mpr ⟨h1, h2⟩
    calc |(t : ℚ)| = ((|t| : ℤ) : ℚ) := Int.cast_abs.symm
      _ ≤ ((2 ^ 52 : ℤ) : ℚ) := by exact_mod_cast ha
      _ = 2 ^ (52 : ℤ) := cast_two_pow_52
  have htone : (1 : ℚ) ≤ |(t : ℚ)| := by
    have h0 : 0 < |t| := abs_pos.mpr hn
    have ha : 1 ≤ |t| := by omega
    calc (1 : ℚ) = ((1 : ℤ) : ℚ) := by norm_num
      _ ≤ ((|t| : ℤ) : ℚ) := by exact_mod_cast ha
      _ = |(t : ℚ)| := Int.cast_abs
  obtain ⟨e, hee⟩ : ∃ x, x = qexp (Q.ofInt t) := ⟨qexp (Q.ofInt t), rfl⟩
  rw [← hee] at hge hlt
  have heU : e ≤ 52 := by
    by_contra hc
    push_neg at hc
    have h3 : (2 : ℚ) ^ (52 : ℤ) < 2 ^ e := zpow_lt_zpow_right₀ (by norm_num) hc
    linarith [hge, htabs]
  have heL : 0 ≤ e := by
    by_contra hc
    push_neg at hc
    have h3 : (2 : ℚ) ^ (e + 1) ≤ 2 ^ (0 : ℤ) :=
      zpow_le_zpow_right₀ (by norm_num) (by omega)
    rw [zpow_zero] at h3
    linarith [hlt, htone]
  obtain ⟨k, hkdef, hround, hrval, hrd, herr, -⟩ :=
    roundF64_spec (Q.ofInt t) hd hqn hnum hden (by omega) (by omega)
  rw [← hee] at hkdef hround hrval hrd herr
  have hp2 : Q.pow2 (e - 52) = ⟨1, ((2 ^ (52 - e).toNat : ℕ) : ℤ)⟩ := by
    rw [pow2_nonpos (e - 52) (by omega)]
    rw [show (-(e - 52)).toNat = (52 - e).toNat from by omega]
  have hxval : ((Q.ofInt t).div (Q.pow2 (e - 52))).val
      = ((t * 2 ^ (52 - e).toNat : ℤ) : ℚ) := by
    rw [Q.val_div _ _ hd (Q.pow2_d_pos _) (Q.pow2_n_pos _).ne', hval, Q.val_pow2]
    rw [show ((t * 2 ^ (52 - e).toNat : ℤ) : ℚ)
        = (t : ℚ) * ((2 ^ (52 - e).toNat : ℕ) : ℚ) from by push_cast; ring]
    rw [two_pow_toNat_cast _ (by omega : (0 : ℤ) ≤ 52 - e)]
    rw [div_eq_mul_inv, ← zpow_neg, show -(e - 52) = 52 - e from by ring]
  have hkval : k = t * 2 ^ (52 - e).toNat := by
    rw [hkdef]
    exact rne_exact _ (Q.div_d_pos _ _ hd (Q.pow2_n_pos _).ne') _ hxval
  refine ⟨(Q.ofInt k).mul (Q.pow2 (e - 52)), hround, hrd, ?_, ?_, ?_⟩
  · rw [hrval, hkval]
    rw [show ((t * 2 ^ (52 - e).toNat : ℤ) : ℚ)
        = (t : ℚ) * ((2 ^ (52 - e).toNat : ℕ) : ℚ) from by push_cast; ring]
    rw [two_pow_toNat_cast _ (by omega : (0 : ℤ) ≤ 52 - e)]
    rw [mul_assoc, ← zpow_add₀ (by norm_num : (2 : ℚ) ≠ 0)]
    rw [show (52 : ℤ) - e + (e - 52) = 0 from by ring, zpow_zero, mul_one]
  · show ((Q.ofInt k).n * (Q.pow2 (e - 52)).n).natAbs ≤ 2 ^ 104
    rw [hp2]
    show (k * 1).natAbs ≤ 2 ^ 104
    rw [Int.mul_one, hkval, Int.natAbs_mul]
    have hb2 : t.natAbs ≤ 2 ^ 52 := by
      have := abs_le.mpr ⟨h1, h2⟩
      omega
    have hb3 : (2 ^ (52 - e).toNat : ℤ).natAbs ≤ 2 ^ 52 := by
      rw [Int.natAbs_pow]
      show (2 : ℕ) ^ (52 - e).toNat ≤ 2 ^ 52
      apply Nat.pow_le_pow_right (by norm_num)
      omega
    calc t.natAbs * (2 ^ (52 - e).toNat : ℤ).natAbs ≤ 2 ^ 52 * 2 ^ 52 :=
          Nat.mul_le_mul hb2 hb3
      _ = 2 ^ 104 := by norm_num
  · show ((Q.ofInt k).d * (Q.pow2 (e - 52)).d).natAbs ≤ 2 ^ 52
    rw [hp2]
    show ((1 : ℤ) * ((2 ^ (52 - e).toNat : ℕ) : ℤ)).natAbs ≤ 2 ^ 52
    rw [Int.one_mul, Int.natAbs_ofNat]
    apply Nat.pow_le_pow_right (by norm_num)
    omega

/-! ## The division by 100.0 and the fixed-two formatting -/

theorem fmt_div100 (a : Q) (t : ℤ) (had : 0 < a.d) (hav : a.val = (t : ℚ))
    (hn : t ≠ 0) (h1 : -(2 ^ 52) ≤ t) (h2 : t ≤ 2 ^ 52)
    (hnum : a.n.natAbs ≤ 2 ^ 104) (hden : a.d.natAbs ≤ 2 ^ 52) :
    fmtFixed2 ((F64.finite a).div (.finite (Q.ofInt 100))) = exactEur t := by
  have h100 : (Q.ofInt 100).n ≠ 0 := by norm_num [Q.ofInt]
  have hdiv : (F64.finite a).div (.finite (Q.ofInt 100))
      = roundF64 (a.div (Q.ofInt 100)) := by
    show (if (Q.ofInt 100).n = 0 then F64.nan else roundF64 (a.div (Q.ofInt 100)))
      = roundF64 (a.div (Q.ofInt 100))
    rw [if_neg h100]
  have hqd_eq : a.div (Q.ofInt 100) = ⟨a.n * 1, a.d * 100⟩ :=
    div_ofInt_pos a 100 (by norm_num) had
  have hqdd : 0 < (a.div (Q.ofInt 100)).d := by
    rw [hqd_eq]
    show 0 < a.d * 100
    positivity
  have han : a.n ≠ 0 := by
    intro hc
    have h0 : a.val = 0 := (Q.val_num_zero a had).mpr hc
    rw [hav] at h0
    exact hn (by exact_mod_cast h0)
  have hqdn : (a.div (Q.ofInt 100)).n ≠ 0 := by
    rw [hqd_eq]
    show a.n * 1 ≠ 0
    simpa using han
  have hqdval : (a.div (Q.ofInt 100)).val = (t : ℚ) / 100 := by
    rw [Q.val_div a _ had (by norm_num [Q.ofInt]) h100, hav, Q.val_ofInt]
    norm_num
  have hqdnum : (a.div (Q.ofInt 100)).n.natAbs < 2 ^ 256 := by
    rw [hqd_eq]
    show (a.n * 1).natAbs < 2 ^ 256
    rw [Int.mul_one]
    calc a.n.natAbs ≤ 2 ^ 104 := hnum
      _ < 2 ^ 256 := by norm_num
  have hqdden : (a.div (Q.ofInt 100)).d.natAbs < 2 ^ 256 := by
    rw [hqd_eq]
    show (a.d * 100).natAbs < 2 ^ 256
    rw [Int.natAbs_mul]
    calc a.d.natAbs * (100 : ℤ).natAbs ≤ 2 ^ 52 * 100 :=
          Nat.mul_le_mul hden (by norm_num)
      _ < 2 ^ 256 := by norm_num
  obtain ⟨hge, hlt⟩ := qexp_spec (a.div (Q.ofInt 100)) hqdd hqdn hqdnum hqdden
  rw [hqdval] at hge hlt
  have htone : (1 : ℚ) ≤ |(t : ℚ)| := by
    have h0 : 0 < |t| := abs_pos.mpr hn
    have ha : 1 ≤ |t| := by omega
    calc (1 : ℚ) = ((1 : ℤ) : ℚ) := by norm_num
      _ ≤ ((|t| : ℤ) : ℚ) := by exact_mod_cast ha
      _ = |(t : ℚ)| := Int.cast_abs
  have htabs : |(t : ℚ)| ≤ 2 ^ (52 : ℤ) := by
    have ha : |t| ≤ 2 ^ 52 := abs_le.mpr ⟨h1, h2⟩
    calc |(t : ℚ)| = ((|t| : ℤ) : ℚ) := Int.cast_abs.symm
      _ ≤ ((2 ^ 52 : ℤ) : ℚ) := by exact_mod_cast ha
      _ = 2 ^ (52 : ℤ) := cast_two_pow_52
  have habs100 : |(t : ℚ) / 100| = |(t : ℚ)| / 100 := by
    rw [abs_div]
    norm_num
  have htu : |(t : ℚ) / 100| < 2 ^ (46 : ℤ) := by
    rw [habs100]
    calc |(t : ℚ)| / 100 ≤ 2 ^ (52 : ℤ) / 100 := by gcongr
      _ < 2 ^ (46 : ℤ) := by norm_num
  have htl : (2 : ℚ) ^ (-7 : ℤ) < |(t : ℚ) / 100| := by
    rw [habs100]
    calc (2 : ℚ) ^ (-7 : ℤ) < 1 / 100 := by norm_num
      _ ≤ |(t : ℚ)| / 100 := by gcongr
  obtain ⟨e2, hee⟩ : ∃ x, x = qexp (a.div (Q.ofInt 100)) :=
    ⟨qexp (a.div (Q.ofInt 100)), rfl⟩
  rw [← hee] at hge hlt
  have he2U : e2 ≤ 45 := by
    by_contra hc
    push_neg at hc
    have h3 : (2 : ℚ) ^ (46 : ℤ) ≤ 2 ^ e2 :=
      zpow_le_zpow_right₀ (by norm_num) (by omega)
    linarith [hge, htu]
  have he2L : -7 ≤ e2 := by
    by_contra hc
    push_neg at hc
    have h3 : (2 : ℚ) ^ (e2 + 1) ≤ 2 ^ (-7 : ℤ) :=
      zpow_le_zpow_right₀ (by norm_num) (by omega)
    exact absurd htl (not_lt.mpr (lt_of_lt_of_le hlt h3).le)
  obtain ⟨k2, hkdef, hround, hrval, hrd, herr, -⟩ :=
    roundF64_spec (a.div (Q.ofInt 100)) hqdd hqdn hqdnum hqdden
      (by omega) (by omega)
  rw [← hee] at hkdef hround hrval hrd herr
  rw [hqdval] at herr
  have herr8 : |(k2 : ℚ) * 2 ^ (e2 - 52) - (t : ℚ) / 100| ≤ 2 ^ (-8 : ℤ) := by
    calc |(k2 : ℚ) * 2 ^ (e2 - 52) - (t : ℚ) / 100| ≤ 2 ^ (e2 - 53) := herr
      _ ≤ 2 ^ (-8 : ℤ) := zpow_le_zpow_right₀ (by norm_num) (by omega)
  set r2 := (Q.ofInt k2).mul (Q.pow2 (e2 - 52)) with hr2
  have hmul_d : 0 < (r2.mul (Q.ofInt 100)).d :=
    Q.mul_d_pos _ _ hrd (by norm_num [Q.ofInt])
  have hmul_val : (r2.mul (Q.ofInt 100)).val = ((k2 : ℚ) * 2 ^ (e2 - 52)) * 100 := by
    rw [Q.val_mul _ _ hrd (by norm_num [Q.ofInt]), Q.val_ofInt, hrval]
    norm_num
  have hm : rne (r2.mul (Q.ofInt 100)) = t := by
    apply rne_of_close _ hmul_d
    rw [hmul_val]
    calc |(k2 : ℚ) * 2 ^ (e2 - 52) * 100 - (t : ℚ)|
        = |(k2 : ℚ) * 2 ^ (e2 - 52) - (t : ℚ) / 100| * 100 := by
          rw [show (k2 : ℚ) * 2 ^ (e2 - 52) * 100 - (t : ℚ)
              = ((k2 : ℚ) * 2 ^ (e2 - 52) - (t : ℚ) / 100) * 100 from by
            field_simp]
          rw [abs_mul, abs_of_pos (by norm_num : (0:ℚ) < 100)]
      _ ≤ 2 ^ (-8 : ℤ) * 100 := by
          apply mul_le_mul_of_nonneg_right herr8 (by norm_num)
      _ < 1 / 2 := by norm_num
  have hsgn : r2.n < 0 ↔ t < 0 := by
    rw [← Q.val_neg_iff r2 hrd, hrval]
    constructor
    · intro hv
      by_contra hc
      push_neg at hc
      have ht1 : 1 ≤ t := by omega
      have ht1q : (1 : ℚ) ≤ (t : ℚ) := by exact_mod_cast ht1
      have hge100 : (1 : ℚ) / 100 ≤ (t : ℚ) / 100 := by gcongr
      have := abs_le.mp herr8
      have h8 : (2:ℚ) ^ (-8 : ℤ) < 1 / 100 := by norm_num
      linarith [this.1]
    · intro hv
      have ht1 : t ≤ -1 := by omega
      have ht1q : (t : ℚ) ≤ -1 := by exact_mod_cast ht1
      have hle100 : (t : ℚ) / 100 ≤ -1 / 100 := by gcongr
      have := abs_le.mp herr8
      have h8 : (2:ℚ) ^ (-8 : ℤ) < 1 / 100 := by norm_num
      linarith [this.2]
  rw [hdiv, hround]
  show (if r2.n < 0 then "-" else "") ++ renderNat ((rne (r2.mul (Q.ofInt 100))).natAbs / 100)
      ++ "." ++ render2 ((rne (r2.mul (Q.ofInt 100))).natAbs % 100) = exactEur t
  rw [hm, exactEur, if_congr hsgn rfl rfl]

/-- Claim C5 (amended): each record is written as account id, email,
count and the eur amount followed by exactly one newline, and the eur
field equals the spec's exact two-decimal rendering of
`total_fees / 100` whenever the total lies within `2 ^ 52` in magnitude
(beyond that the f64 round trip can shift the last digit, see the
counterexample). -/
theorem claim_C5_record_line (af : AccountFees)
    (h1 : -(2 ^ 52) ≤ af.total_fees) (h2 : af.total_fees ≤ 2 ^ 52) :
    writtenRecord af = specLine af ++ "\n" ∧
    (∀ m : Summary, outputContent m =
      AccountFees.csv_header ++ "\n"
        ++ String.join (m.map fun kv => writtenRecord kv.2)) := by
  refine ⟨?_, fun m => rfl⟩
  rw [writtenRecord, displayAccountFees, specLine]
  suffices hfmt : fmtFixed2 ((i64ToF64 af.total_fees).div (.finite (Q.ofInt 100)))
      = exactEur af.total_fees by
    rw [hfmt]
  by_cases hz : af.total_fees = 0
  · rw [hz]
    decide
  · obtain ⟨r, hcast, hrd, hrval, hrn, hrdb⟩ := i64ToF64_exact af.total_fees hz h1 h2
    rw [hcast]
    exact fmt_div100 r af.total_fees hrd hrval hz h1 h2 hrn hrdb

theorem claim_C5_record_line_witness :
    writtenRecord ⟨"acct_123", "user@example.com", 1, 25⟩ =
      specLine ⟨"acct_123", "user@example.com", 1, 25⟩ ++ "\n" :=
  (claim_C5_record_line ⟨"acct_123", "user@example.com", 1, 25⟩
    (by norm_num) (by norm_num)).1

/-- Claim C5 as stated is false: for a record with
`total_fees = 2 ^ 53 + 1` the code writes `90071992547409.92` (the
total is routed through `f64`, which cannot represent `2 ^ 53 + 1`),
while the exact rendering of `total_fees / 100` is
`90071992547409.93`. -/
theorem claim_C5_counterexample :
    writtenRecord ⟨"a", "e", 1, 9007199254740993⟩ = "a,e,1,90071992547409.92\n" ∧
    specLine ⟨"a", "e", 1, 9007199254740993⟩ ++ "\n" = "a,e,1,90071992547409.93\n" ∧
    writtenRecord ⟨"a", "e", 1, 9007199254740993⟩ ≠
      specLine ⟨"a", "e", 1, 9007199254740993⟩ ++ "\n" := by
  refine ⟨by decide, by decide, by decide⟩

/-! ## Exactness of `parse_amount` on two-decimal inputs

On a string of the claimed grammar whose fractional part has at most
two digits, the exact value times 100 is an integer; the chain
`f64` parse, multiply by 100.0, `round`, `as i64` reproduces that
integer exactly as long as it stays well inside the range where the
two binary64 roundings keep the accumulated error below one half. -/

theorem conv_fixes_digit (c : Char) (h : c.isDigit = true) :
    (if c = ',' then '.' else c) = c := by
  by_cases hc : c = ','
  · subst hc
    exact absurd h (by decide)
  · rw [if_neg hc]

theorem commaToDot_of_digits (l : List Char) (h : ∀ c ∈ l, c.isDigit = true) :
    commaToDot l = l :=
  (List.map_congr_left fun c hc => conv_fixes_digit c (h c hc)).trans (List.map_id l)

theorem takeWhile_digit_commaToDot (l : List Char) :
    (commaToDot l).takeWhile Char.isDigit = l.takeWhile Char.isDigit := by
  rw [commaToDot, List.takeWhile_map, isDigit_comp_conv]
  exact commaToDot_of_digits _ fun c hc => List.mem_takeWhile_imp hc

theorem dropWhile_digit_commaToDot (l : List Char) :
    (commaToDot l).dropWhile Char.isDigit = commaToDot (l.dropWhile Char.isDigit) := by
  rw [commaToDot, List.dropWhile_map, isDigit_comp_conv]
  rfl

theorem rustParseF64_grammar (s : String) (h : claimedGrammar s = true) :
    rustParseF64 (commaToDot s.data) = some (roundF64 (specValue s)) := by
  rcases hp : takeSign s.data with ⟨nf, r⟩
  simp only [claimedGrammar, hp, Bool.and_eq_true] at h
  obtain ⟨⟨hany, hall⟩, hsep⟩ := h
  have hsep' : r.countP isSep ≤ 1 := by
    rw [List.countP_eq_length_filter]
    exact of_decide_eq_true hsep
  have hts : takeSign (commaToDot s.data) = (nf, commaToDot r) := by
    rw [takeSign_commaToDot, hp]
  have hany' : (commaToDot r).any Char.isDigit = true := by
    rw [commaToDot, List.any_map, isDigit_comp_conv]
    exact hany
  have hfold : ((commaToDot r).map caseFold).any Char.isDigit = true := by
    rw [List.any_map, isDigit_comp_caseFold]
    exact hany'
  have hninf : ¬((commaToDot r).map caseFold = "inf".toList ∨
      (commaToDot r).map caseFold = "infinity".toList) := by
    rintro (he | he) <;> rw [he] at hfold <;> cases hfold
  have hnnan : ¬((commaToDot r).map caseFold = "nan".toList) := by
    intro he
    rw [he] at hfold
    cases hfold
  rw [rustParseF64, hts]
  simp only
  rw [if_neg hninf, if_neg hnnan]
  simp only [specValue, hp]
  have htw := takeWhile_digit_commaToDot r
  have hdw := dropWhile_digit_commaToDot r
  have hsplit : r.takeWhile Char.isDigit ++ r.dropWhile Char.isDigit = r :=
    List.takeWhile_append_dropWhile Char.isDigit r
  cases hr1 : r.dropWhile Char.isDigit with
  | nil =>
    have hdw' : (commaToDot r).dropWhile Char.isDigit = [] := by
      rw [hdw, hr1]
      rfl
    have hne : r.takeWhile Char.isDigit ≠ [] := by
      rw [hr1, List.append_nil] at hsplit
      rw [hsplit]
      intro hnil
      rw [hnil] at hany
      cases hany
    have hne' : (commaToDot r).takeWhile Char.isDigit ≠ [] := by
      rw [htw]
      exact hne
    simp only [parseNumPart, hdw', htw]
    rw [if_neg hne]
    rfl
  | cons c t =>
    have hl : r = r.takeWhile Char.isDigit ++ c :: t := by
      rw [hr1] at hsplit
      exact hsplit.symm
    have hcd : Char.isDigit c = false := by
      have hw := List.head?_dropWhile_not Char.isDigit r
      rw [hr1] at hw
      simpa using hw
    have hcmem : c ∈ r := by
      rw [hl]
      exact List.mem_append_right _ (List.mem_cons_self _ _)
    have hcsep : isSep c = true := by
      have hx := (List.all_eq_true.mp hall) c hcmem
      rw [Bool.or_eq_true_iff] at hx
      rcases hx with hx | hx
      · exact absurd hx (by rw [hcd]; exact Bool.false_ne_true)
      · exact hx
    have htnosep : ∀ x ∈ t, isSep x = false := by
      intro x hx
      by_contra hc2
      have hxs : isSep x = true := by
        cases hxx : isSep x
        · exact absurd hxx hc2
        · rfl
      have hpos : 0 < t.countP isSep :=
        List.countP_pos_iff.mpr ⟨x, hx, hxs⟩
      have hc3 := hsep'
      rw [hl, List.countP_append, List.countP_cons] at hc3
      rw [hcsep] at hc3
      simp at hc3
      omega
    have htall : ∀ x ∈ t, Char.isDigit x = true := by
      intro x hx
      have hxl : x ∈ r := by
        rw [hl]
        exact List.mem_append_right _ (List.mem_cons_of_mem _ hx)
      have hy := (List.all_eq_true.mp hall) x hxl
      rw [Bool.or_eq_true_iff] at hy
      rcases hy with hy | hy
      · exact hy
      · exact absurd hy (by rw [htnosep x hx]; exact Bool.false_ne_true)
    have hconvc : (if c = ',' then '.' else c) = '.' := by
      have hx : c = '.' ∨ c = ',' := by simpa [isSep] using hcsep
      rcases hx with hx | hx <;> subst hx <;> rfl
    have hdw' : (commaToDot r).dropWhile Char.isDigit = '.' :: t := by
      rw [hdw, hr1, commaToDot_cons, hconvc, commaToDot_of_digits t htall]
    have htw' : t.takeWhile Char.isDigit = t :=
      List.takeWhile_eq_self_iff.mpr htall
    have hdwt : t.dropWhile Char.isDigit = [] :=
      List.dropWhile_eq_nil_iff.mpr htall
    have hne : ¬((commaToDot r).takeWhile Char.isDigit = [] ∧ t = []) := by
      rw [htw]
      rintro ⟨h1, h2⟩
      rw [hl, h1, h2] at hany
      rw [List.nil_append] at hany
      simp [hcd] at hany
    simp only [parseNumPart, hdw', htw', hdwt, htw]
    rw [if_neg (by rw [htw] at hne; exact hne)]
    rfl

theorem pow10_neg_nat (len : ℕ) : Q.pow10 (-(len : ℤ)) = ⟨1, (10 : ℤ) ^ len⟩ := by
  rcases Nat.eq_zero_or_pos len with h | h
  · subst h
    rfl
  · rw [Q.pow10, if_neg (by omega : ¬(0 : ℤ) ≤ -(len : ℤ))]
    have ht : (-(-(len : ℤ))).toNat = len := by omega
    rw [ht]
    have hc : ((10 ^ len : ℕ) : ℤ) = (10 : ℤ) ^ len := by push_cast; rfl
    rw [hc]

theorem decValue_zero_exp (nf : Bool) (d1 d2 : List Char) :
    decValue nf d1 d2 0 =
      ⟨((if nf then -1 else 1) * (digitsToNat (d1 ++ d2) : ℤ)) * 1,
        1 * (10 : ℤ) ^ d2.length⟩ := by
  rw [decValue, show (0 : ℤ) - (d2.length : ℤ) = -(d2.length : ℤ) from by ring,
    pow10_neg_nat]
  rfl

theorem specValue_shape (s : String) :
    ∃ M : ℤ, specValue s = ⟨M * 1, 1 * (10 : ℤ) ^ fracDigits s⟩ := by
  rcases hp : takeSign s.data with ⟨nf, r⟩
  simp only [specValue, fracDigits, hp]
  cases hr1 : r.dropWhile Char.isDigit with
  | nil =>
    refine ⟨(if nf then -1 else 1) *
      (digitsToNat (r.takeWhile Char.isDigit ++ []) : ℤ), ?_⟩
    show decValue nf (r.takeWhile Char.isDigit) [] 0 = _
    rw [decValue_zero_exp]
    rfl
  | cons c t =>
    refine ⟨(if nf then -1 else 1) *
      (digitsToNat (r.takeWhile Char.isDigit ++ t) : ℤ), ?_⟩
    show decValue nf (r.takeWhile Char.isDigit) t 0 = _
    rw [decValue_zero_exp]

theorem specValue_cents (s : String) (k : ℤ) (hg : claimedGrammar s = true)
    (hfd : fracDigits s ≤ 2) (hspec : specParseAmount s = some k)
    (hkl : -(2 ^ 45) ≤ k) (hku : k ≤ 2 ^ 45) :
    0 < (specValue s).d ∧ (specValue s).val = (k : ℚ) / 100 ∧
      (specValue s).n.natAbs ≤ 2 ^ 46 ∧ (specValue s).d.natAbs ≤ 2 ^ 7 := by
  obtain ⟨M, hM⟩ := specValue_shape s
  have hd : 0 < (specValue s).d := by
    rw [hM]
    positivity
  rw [specParseAmount, if_pos hg] at hspec
  injection hspec with hk
  have hq2 : (specValue s).mul (Q.ofInt 100) =
      ⟨(M * 1) * 100, (1 * (10 : ℤ) ^ fracDigits s) * 1⟩ := by
    rw [hM]
    rfl
  have hq2d : 0 < ((specValue s).mul (Q.ofInt 100)).d := by
    rw [hq2]
    positivity
  have hpow : (10 : ℚ) ^ (2 - fracDigits s) * (10 : ℚ) ^ fracDigits s = 100 := by
    rw [← pow_add, show 2 - fracDigits s + fracDigits s = 2 from by omega]
    norm_num
  have hq2val : ((specValue s).mul (Q.ofInt 100)).val =
      ((M * 10 ^ (2 - fracDigits s) : ℤ) : ℚ) := by
    rw [hq2, Q.val]
    push_cast
    rw [div_eq_iff (by positivity : ((1 : ℚ) * 10 ^ fracDigits s * 1) ≠ 0)]
    linear_combination (-M : ℚ) * hpow
  have hkval : k = M * 10 ^ (2 - fracDigits s) := by
    rw [← hk]
    exact roundHalfAway_exact _ hq2d _ hq2val
  have hval : (specValue s).val = (k : ℚ) / 100 := by
    rw [hM, Q.val, hkval]
    push_cast
    rw [div_eq_div_iff (by positivity) (by norm_num)]
    linear_combination (-M : ℚ) * hpow
  have h1le : (1 : ℤ) ≤ 10 ^ (2 - fracDigits s) := one_le_pow₀ (by norm_num)
  have hMabs : |M| * 10 ^ (2 - fracDigits s) = |k| := by
    rw [hkval, abs_mul, abs_of_nonneg (by positivity : (0 : ℤ) ≤ 10 ^ (2 - fracDigits s))]
  have hMle : |M| ≤ 2 ^ 45 := by
    have h2 : |M| * 1 ≤ |M| * 10 ^ (2 - fracDigits s) :=
      mul_le_mul_of_nonneg_left h1le (abs_nonneg M)
    have h4 : |k| ≤ 2 ^ 45 := abs_le.mpr ⟨hkl, hku⟩
    calc |M| = |M| * 1 := (mul_one _).symm
      _ ≤ |k| := by rw [← hMabs]; exact h2
      _ ≤ 2 ^ 45 := h4
  have hnA : (specValue s).n.natAbs ≤ 2 ^ 46 := by
    rw [hM]
    show (M * 1).natAbs ≤ 2 ^ 46
    have := Int.abs_eq_natAbs M
    omega
  have hdA : (specValue s).d.natAbs ≤ 2 ^ 7 := by
    rw [hM]
    show (1 * (10 : ℤ) ^ fracDigits s).natAbs ≤ 2 ^ 7
    rw [one_mul, Int.natAbs_pow]
    have h5 : (10 : ℤ).natAbs ^ fracDigits s ≤ 10 ^ 2 :=
      Nat.pow_le_pow_right (by norm_num) hfd
    omega
  exact ⟨hd, hval, hnA, hdA⟩

theorem parseChain (q : Q) (k : ℤ) (hd : 0 < q.d) (hval : q.val = (k : ℚ) / 100)
    (hnum : q.n.natAbs ≤ 2 ^ 46) (hden : q.d.natAbs ≤ 2 ^ 7)
    (hkl : -(2 ^ 45) ≤ k) (hku : k ≤ 2 ^ 45) :
    ((roundF64 q).mul (.finite (Q.ofInt 100))).rustRound.toI64 = k := by
  by_cases hk0 : k = 0
  · subst hk0
    have hv0 : q.val = 0 := by rw [hval]; norm_num
    have hn0 : q.n = 0 := (Q.val_num_zero q hd).mp hv0
    rw [show roundF64 q = .finite (Q.ofInt 0) from by rw [roundF64, if_pos hn0]]
    decide
  have hkq : ((k : ℚ)) ≠ 0 := Int.cast_ne_zero.mpr hk0
  have hq0 : q.n ≠ 0 := by
    intro h0
    have hv := (Q.val_num_zero q hd).mpr h0
    rw [hval] at hv
    field_simp at hv
    exact hk0 hv
  have hkabs1 : (1 : ℚ) ≤ |(k : ℚ)| := by
    have h1 : (1 : ℤ) ≤ |k| := Int.one_le_abs hk0
    have h2 : ((1 : ℤ) : ℚ) ≤ |(k : ℚ)| := by
      rw [← Int.cast_abs]
      exact_mod_cast h1
    simpa using h2
  have hkabs45 : |(k : ℚ)| ≤ 2 ^ (45 : ℤ) := by
    have h1 : |k| ≤ 2 ^ 45 := abs_le.mpr ⟨hkl, hku⟩
    have hcast : ((2 ^ 45 : ℤ) : ℚ) = (2 : ℚ) ^ (45 : ℤ) := by
      rw [show (2 : ℚ) ^ (45 : ℤ) = (2 : ℚ) ^ (45 : ℕ) from zpow_natCast 2 45]
      push_cast
      norm_num
    calc |(k : ℚ)| = ((|k| : ℤ) : ℚ) := Int.cast_abs.symm
      _ ≤ ((2 ^ 45 : ℤ) : ℚ) := by exact_mod_cast h1
      _ = 2 ^ (45 : ℤ) := hcast
  have habs : |q.val| = |(k : ℚ)| / 100 := by
    rw [hval, abs_div]
    norm_num
  have he := qexp_spec q hd hq0 (by omega) (by omega)
  obtain ⟨e, hee⟩ : ∃ x, x = qexp q := ⟨qexp q, rfl⟩
  rw [← hee] at he
  obtain ⟨heg, hel⟩ := he
  have heL : -7 ≤ e := by
    by_contra hc
    push_neg at hc
    have h1 : (2 : ℚ) ^ (e + 1) ≤ 2 ^ (-7 : ℤ) :=
      zpow_le_zpow_right₀ (by norm_num) (by omega)
    have h2 : |q.val| < 2 ^ (-7 : ℤ) := lt_of_lt_of_le hel h1
    rw [habs] at h2
    have h3 : (2 : ℚ) ^ (-7 : ℤ) = 1 / 128 := by norm_num
    rw [h3] at h2
    linarith
  have heU : e ≤ 38 := by
    by_contra hc
    push_neg at hc
    have h1 : (2 : ℚ) ^ (39 : ℤ) ≤ 2 ^ e := zpow_le_zpow_right₀ (by norm_num) (by omega)
    have h2 : (2 : ℚ) ^ (39 : ℤ) ≤ |q.val| := le_trans h1 heg
    rw [habs] at h2
    have h4 : |(k : ℚ)| / 100 ≤ 2 ^ (45 : ℤ) / 100 := by linarith
    have h5 : (2 : ℚ) ^ (45 : ℤ) / 100 < 2 ^ (39 : ℤ) := by norm_num
    linarith
  obtain ⟨k1, -, hround1, hr1val, hr1d, herr1, hk1b⟩ :=
    roundF64_spec q hd hq0 (by omega) (by omega) (by omega) (by omega)
  rw [← hee] at hround1 hr1val hr1d herr1
  rw [hround1]
  show (roundF64 (((Q.ofInt k1).mul (Q.pow2 (e - 52))).mul (Q.ofInt 100))).rustRound.toI64
    = k
  have h100d : (0 : ℤ) < (Q.ofInt 100).d := by norm_num [Q.ofInt]
  have hm2d : 0 < (((Q.ofInt k1).mul (Q.pow2 (e - 52))).mul (Q.ofInt 100)).d :=
    Q.mul_d_pos _ _ hr1d h100d
  have hm2val : (((Q.ofInt k1).mul (Q.pow2 (e - 52))).mul (Q.ofInt 100)).val
      = (k1 : ℚ) * 2 ^ (e - 52) * 100 := by
    rw [Q.val_mul _ _ hr1d h100d, hr1val, Q.val_ofInt]
    norm_num
  have hqv100 : q.val * 100 = (k : ℚ) := by
    rw [hval, div_mul_cancel₀ _ (by norm_num : (100 : ℚ) ≠ 0)]
  have herr1' : |(k1 : ℚ) * 2 ^ (e - 52) - q.val| ≤ 2 ^ (-15 : ℤ) :=
    le_trans herr1 (zpow_le_zpow_right₀ (by norm_num) (by omega))
  have hm2err : |(((Q.ofInt k1).mul (Q.pow2 (e - 52))).mul (Q.ofInt 100)).val - (k : ℚ)|
      < 2 ^ (-8 : ℤ) := by
    rw [hm2val, ← hqv100]
    have h1 : (k1 : ℚ) * 2 ^ (e - 52) * 100 - q.val * 100
        = ((k1 : ℚ) * 2 ^ (e - 52) - q.val) * 100 := by ring
    rw [h1, abs_mul, show |(100 : ℚ)| = 100 from by norm_num]
    have h2 : |(k1 : ℚ) * 2 ^ (e - 52) - q.val| * 100 ≤ 2 ^ (-15 : ℤ) * 100 :=
      mul_le_mul_of_nonneg_right herr1' (by norm_num)
    have h3 : (2 : ℚ) ^ (-15 : ℤ) * 100 < 2 ^ (-8 : ℤ) := by norm_num
    linarith
  have hm2vne : (((Q.ofInt k1).mul (Q.pow2 (e - 52))).mul (Q.ofInt 100)).val ≠ 0 := by
    intro h0
    rw [h0, zero_sub, abs_neg] at hm2err
    have h1 : (2 : ℚ) ^ (-8 : ℤ) < 1 := by norm_num
    linarith
  have hm2n : (((Q.ofInt k1).mul (Q.pow2 (e - 52))).mul (Q.ofInt 100)).n ≠ 0 := by
    intro h0
    exact hm2vne ((Q.val_num_zero _ hm2d).mpr h0)
  have hr1shape : (Q.ofInt k1).mul (Q.pow2 (e - 52))
      = ⟨k1 * 1, 1 * ((2 ^ (52 - e).toNat : ℕ) : ℤ)⟩ := by
    rw [pow2_nonpos (e - 52) (by omega), show -(e - 52) = 52 - e from by ring]
    rfl
  obtain ⟨hk1a, hk1c⟩ := abs_le.mp hk1b
  have hm2num : ((((Q.ofInt k1).mul (Q.pow2 (e - 52))).mul (Q.ofInt 100)).n).natAbs
      < 2 ^ 256 := by
    rw [hr1shape]
    show ((k1 * 1) * 100).natAbs < 2 ^ 256
    omega
  have hm2den : ((((Q.ofInt k1).mul (Q.pow2 (e - 52))).mul (Q.ofInt 100)).d).natAbs
      < 2 ^ 256 := by
    rw [hr1shape]
    show ((1 * ((2 ^ (52 - e).toNat : ℕ) : ℤ)) * 1).natAbs < 2 ^ 256
    have h1 : (52 - e).toNat ≤ 59 := by omega
    have h2 : (2 : ℕ) ^ (52 - e).toNat ≤ 2 ^ 59 := Nat.pow_le_pow_right (by norm_num) h1
    simp only [one_mul, mul_one, Int.natAbs_ofNat]
    omega
  have he2 := qexp_spec (((Q.ofInt k1).mul (Q.pow2 (e - 52))).mul (Q.ofInt 100))
    hm2d hm2n hm2num hm2den
  obtain ⟨e2, hee2⟩ :
      ∃ x, x = qexp (((Q.ofInt k1).mul (Q.pow2 (e - 52))).mul (Q.ofInt 100)) := ⟨_, rfl⟩
  rw [← hee2] at he2
  obtain ⟨he2g, he2l⟩ := he2
  have hm2hi : |(((Q.ofInt k1).mul (Q.pow2 (e - 52))).mul (Q.ofInt 100)).val|
      < 2 ^ (45 : ℤ) + 2 ^ (-8 : ℤ) := by
    have h1 := abs_sub_abs_le_abs_sub
      (((Q.ofInt k1).mul (Q.pow2 (e - 52))).mul (Q.ofInt 100)).val ((k : ℚ))
    linarith
  have hm2lo : 1 - 2 ^ (-8 : ℤ)
      < |(((Q.ofInt k1).mul (Q.pow2 (e - 52))).mul (Q.ofInt 100)).val| := by
    have h1 := abs_sub_abs_le_abs_sub ((k : ℚ))
      (((Q.ofInt k1).mul (Q.pow2 (e - 52))).mul (Q.ofInt 100)).val
    rw [abs_sub_comm] at h1
    linarith
  have he2L : -1 ≤ e2 := by
    by_contra hc
    push_neg at hc
    have h1 : (2 : ℚ) ^ (e2 + 1) ≤ 2 ^ (-1 : ℤ) :=
      zpow_le_zpow_right₀ (by norm_num) (by omega)
    have h2 : (2 : ℚ) ^ (-1 : ℤ) = 1 / 2 := by norm_num
    have h3 : (2 : ℚ) ^ (-8 : ℤ) = 1 / 256 := by norm_num
    rw [h2] at h1
    rw [h3] at hm2lo
    linarith
  have he2U : e2 ≤ 45 := by
    by_contra hc
    push_neg at hc
    have h1 : (2 : ℚ) ^ (46 : ℤ) ≤ 2 ^ e2 := zpow_le_zpow_right₀ (by norm_num) (by omega)
    have h2 : (2 : ℚ) ^ (45 : ℤ) + 2 ^ (-8 : ℤ) < 2 ^ (46 : ℤ) := by norm_num
    linarith
  obtain ⟨k2, -, hround2, hr2val, hr2d, herr2, -⟩ :=
    roundF64_spec (((Q.ofInt k1).mul (Q.pow2 (e - 52))).mul (Q.ofInt 100))
      hm2d hm2n hm2num hm2den (by omega) (by omega)
  rw [← hee2] at hround2 hr2val hr2d herr2
  rw [hround2]
  show (F64.finite (Q.ofInt (roundHalfAway ((Q.ofInt k2).mul (Q.pow2 (e2 - 52)))))).toI64
    = k
  have herr2' : |(k2 : ℚ) * 2 ^ (e2 - 52)
      - (((Q.ofInt k1).mul (Q.pow2 (e - 52))).mul (Q.ofInt 100)).val| ≤ 2 ^ (-8 : ℤ) :=
    le_trans herr2 (zpow_le_zpow_right₀ (by norm_num) (by omega))
  have hclose : |((Q.ofInt k2).mul (Q.pow2 (e2 - 52))).val - (k : ℚ)| < 1 / 2 := by
    rw [hr2val]
    have h1 := abs_sub_le ((k2 : ℚ) * 2 ^ (e2 - 52))
      (((Q.ofInt k1).mul (Q.pow2 (e - 52))).mul (Q.ofInt 100)).val ((k : ℚ))
    have h3 : (2 : ℚ) ^ (-8 : ℤ) = 1 / 256 := by norm_num
    rw [h3] at herr2' hm2err
    linarith
  rw [roundHalfAway_of_close _ hr2d k hclose]
  simp only [F64.toI64]
  rw [ratTrunc_ofInt]
  rw [if_neg (by omega), if_neg (by omega)]

/-- Claim C1 (amended): the decimal-separator equivalence and the
cited examples hold (comma and dot are interchangeable, and 0.126,
0.124, 42, 1,234 parse to 13, 12, 4200, 123), and `parse_amount`
agrees with the spec's exact semantics (real value times 100, rounded
half away from zero) on every string of the claimed grammar with at
most two fractional digits whose cent value is within `2 ^ 45`.  The
universal identity on arbitrary fractional parts fails because the
code routes the value through binary64, see the counterexample. -/
theorem claim_C1_amount_value :
    parseAmount "0.126" = some 13 ∧ parseAmount "0.124" = some 12 ∧
    parseAmount "42" = some 4200 ∧ parseAmount "1,234" = some 123 ∧
    (∀ s : String, parseAmount s = parseAmount ⟨commaToDot s.data⟩) ∧
    (∀ (s : String) (k : ℤ), claimedGrammar s = true → fracDigits s ≤ 2 →
      specParseAmount s = some k → -(2 ^ 45) ≤ k → k ≤ 2 ^ 45 →
      parseAmount s = some k) := by
  refine ⟨by decide, by decide, by decide, by decide, ?_, ?_⟩
  · intro s
    rw [parseAmount, parseAmount]
    rw [show (String.mk (commaToDot s.data)).data = commaToDot s.data from rfl]
    rw [commaToDot_idem]
  · intro s k hg hfd hspec hkl hku
    obtain ⟨hd, hval, hnum, hden⟩ := specValue_cents s k hg hfd hspec hkl hku
    have h1 := rustParseF64_grammar s hg
    rw [parseAmount, h1]
    show some (((roundF64 (specValue s)).mul
      (.finite (Q.ofInt 100))).rustRound.toI64) = some k
    rw [parseChain (specValue s) k hd hval hnum hden hkl hku]

theorem claim_C1_amount_value_witness :
    claimedGrammar "1,50" = true ∧ fracDigits "1,50" ≤ 2 ∧
    specParseAmount "1,50" = some 150 ∧ -(2 ^ 45) ≤ (150 : ℤ) ∧ (150 : ℤ) ≤ 2 ^ 45 ∧
    parseAmount "1,50" = some 150 :=
  ⟨by decide, by decide, by decide, by decide, by decide,
    claim_C1_amount_value.2.2.2.2.2 "1,50" 150 (by decide) (by decide) (by decide)
      (by decide) (by decide)⟩

end StripeCsv
